import Mathlib

/-!
Verification of the MDX writer (`sphinxcontrib/mdxbuilder/writers/mdx.py`):
a width-aware line wrapper (`my_wrap` / `TextWrapper`) and a docutils
tree-walking translator (`MdxTranslator`).

Strings are shallowly embedded as `List Char`.  The display width of a
character is 2 for wide/full-width characters and 1 otherwise; which
characters are wide is owned by the external `docutils.utils.column_width`
table, so the whole development is parametrised by a predicate
`wide : Char → Bool`.
-/

namespace Mdx

/-- Convert a string literal to the `List Char` representation used here. -/
def chars (s : String) : List Char := s.toList

/-- Whitespace test used for Python's `str.strip()` / `\s` in the word
separator pattern (modelled by `Char.isWhitespace`). -/
def pySpace (c : Char) : Bool := c.isWhitespace

/-- Python `str.strip()`: drop leading and trailing whitespace. -/
def pyStrip (s : List Char) : List Char :=
  ((s.dropWhile pySpace).reverse.dropWhile pySpace).reverse

/-- Python `text.replace("\n", "")`: remove every newline character. -/
def removeNl (s : List Char) : List Char := s.filter (fun c => c ≠ '\n')

/-- Auxiliary scanner for `pySplitlines`. -/
def pySplitlinesAux : List Char → List Char → List (List Char)
  | [], acc => [acc.reverse]
  | ['\n'], acc => [acc.reverse]
  | '\n' :: r, acc => acc.reverse :: pySplitlinesAux r []
  | c :: r, acc => pySplitlinesAux r (c :: acc)

/-- Python `str.splitlines()` (newline-only version): splits on `'\n'`,
with no trailing empty line for a terminal newline, and `[]` for `""`. -/
def pySplitlines (s : List Char) : List (List Char) :=
  match s with
  | [] => []
  | _ => pySplitlinesAux s []

/-- Python `str.replace(":::", "")` specialised to the `":::"` pattern:
a left-to-right scan removing non-overlapping occurrences (on a match
the scan jumps past it, otherwise it advances one character). -/
def replTriple : List Char → List Char
  | c1 :: c2 :: c3 :: r =>
    if c1 = ':' ∧ c2 = ':' ∧ c3 = ':' then replTriple r
    else c1 :: replTriple (c2 :: c3 :: r)
  | s => s

/-- Whether a string contains `":::"` as a substring. -/
def hasTriple : List Char → Bool
  | c1 :: c2 :: c3 :: r =>
    (c1 == ':' && c2 == ':' && c3 == ':') || hasTriple (c2 :: c3 :: r)
  | _ => false

/-- Whether a string starts with `"::"`. -/
def leads2 : List Char → Bool
  | c1 :: c2 :: _ => c1 == ':' && c2 == ':'
  | _ => false

/-- Python `self.nl.join(...)` / `" | ".join(...)`: join strings with a
separator. -/
def pyJoin (sep : List Char) : List (List Char) → List Char
  | [] => []
  | [p] => p
  | p :: ps => p ++ sep ++ pyJoin sep ps

/-- Python `str(n)` for an integer, as a character list. -/
def intRepr (n : Int) : List Char := (toString n).toList

section Wrapper

variable (wide : Char → Bool)

/-- Display width of one character: 2 if wide, else 1
(`docutils.utils.column_width` on a single character, per the measure
the spec states: wide = 2, all others = 1). -/
def cw (c : Char) : Int := if wide c then 2 else 1

/-- Display-column width of a string (`docutils.utils.column_width`). -/
def colw (s : List Char) : Int := (s.map (cw wide)).sum

/-- Worker for `runSplit`: `acc` is the (reversed) run currently being
collected, whose characters all have `key`-value `v`. -/
def runSplitGo (key : Char → Bool) (v : Bool) (acc : List Char) :
    List Char → List (List Char)
  | [] => [acc.reverse]
  | c :: r =>
    if key c = v then runSplitGo key v (c :: acc) r
    else acc.reverse :: runSplitGo key (key c) [c] r

/-- Split a string into maximal runs of characters sharing the same
`key`-value (consecutive grouping, as `itertools.groupby` does). -/
def runSplit (key : Char → Bool) : List Char → List (List Char)
  | [] => []
  | c :: r => runSplitGo key (key c) [c] r

/-- Modelled from the spec: the base chunk splitter
(CPython `textwrap.TextWrapper._split` with the custom `wordsep_re`;
stdlib code, not part of this repository).  Modelled as splitting into
maximal whitespace and non-whitespace runs — the `\s+` alternative of
the pattern; the hyphen / em-dash / interpreted-text alternatives only
split non-whitespace runs more finely and do not affect any property
proved here (chunks stay nonempty sublists of the input). -/
def baseSplit (text : List Char) : List (List Char) := runSplit pySpace text

/-- Modelled from the spec: `textwrap.TextWrapper._munge_whitespace`
(stdlib): with the default options every whitespace character is
replaced by a plain space.  (Tab expansion only changes how many spaces
a tab becomes, which no claim depends on.) -/
def munge (text : List Char) : List Char :=
  text.map (fun c => if pySpace c then ' ' else c)

/-- `TextWrapper._split` (mdx.py lines 92-108): split with the word
separator pattern, then explode every chunk into runs of same-width
characters; wide runs become single-character chunks, width-1 runs are
re-split with the word separator pattern. -/
def mySplit (text : List Char) : List (List Char) :=
  (baseSplit text).flatMap fun chunk =>
    (runSplit wide chunk).flatMap fun g =>
      match g with
      | [] => []
      | c :: _ => if wide c then g.map (fun ch => [ch]) else baseSplit g

/-- First index at which the running display width of `word` exceeds
`space_left` (the loop of `TextWrapper._break_word`). -/
def firstExceedAux (sl : Int) : List Char → Int → Nat → Option Nat
  | [], _, _ => none
  | c :: r, tot, i =>
    let t := tot + cw wide c
    if t > sl then some i else firstExceedAux sl r t (i + 1)

/-- `TextWrapper._break_word` (mdx.py lines 83-90): break `word` by
display width.  When the width first exceeds `space_left` at index `i`
the code returns `word[:i-1], word[i-1:]`; for `i = 0` Python's negative
indexing makes that `word[:-1], word[-1:]`. -/
def breakWord (word : List Char) (sl : Int) : List Char × List Char :=
  match firstExceedAux wide sl word 0 0 with
  | none => (word, [])
  | some 0 => (word.dropLast, word.drop (word.length - 1))
  | some (i + 1) => (word.take i, word.drop i)

/-- The greedy packing loop of `TextWrapper._wrap_chunks` (lines 62-70):
move chunks onto the current line while `cur_len + column_width(chunk)
≤ width`.  Returns (packed chunks, remaining chunks, final `cur_len`). -/
def packChunks (w : Int) : Int → List (List Char) → List (List Char) × List (List Char) × Int
  | curLen, [] => ([], [], curLen)
  | curLen, c :: r =>
    if curLen + colw wide c ≤ w then
      let p := packChunks w (curLen + colw wide c) r
      (c :: p.1, p.2.1, p.2.2)
    else ([], c :: r, curLen)

/-- `TextWrapper._handle_long_word` (lines 110-121) with the default
`break_long_words = True`: break the head chunk at `space_left =
max(width - cur_len, 1)` and keep the rest as the new head chunk.
(The `break_long_words = False` branch is dead under the defaults
`my_wrap` always uses.) -/
def handleLong (w : Int) (curLen : Int) (cur : List (List Char))
    (hd : List Char) (tl : List (List Char)) :
    List (List Char) × List (List Char) :=
  let sl := max (w - curLen) 1
  let p := breakWord wide hd sl
  (cur ++ [p.1], p.2 :: tl)

/-- Result of a wrap call: the produced lines, the `ValueError` raised
for `width ≤ 0`, or fuel exhaustion (the source loop does not terminate
for some inputs at width 1, see `wrapLoop`). -/
inductive WrapRes where
  | ok : List (List Char) → WrapRes
  | widthErr : WrapRes
  | fuelOut : WrapRes
deriving DecidableEq

/-- The leading-whitespace drop of `_wrap_chunks` (lines 59-60): once
lines exist (`first = false`), a whitespace-only head chunk is deleted. -/
def dropLead (first : Bool) (c0 : List Char) (r0 : List (List Char)) :
    List (List Char) :=
  if first = false ∧ pyStrip c0 = [] then r0 else c0 :: r0

/-- The long-word step of `_wrap_chunks` (lines 72-73): when the head
remaining chunk is wider than the whole usable width, hand it to
`_handle_long_word`. -/
def longWordStep (w : Int) (curLen : Int) (cur rest : List (List Char)) :
    List (List Char) × List (List Char) :=
  match rest with
  | [] => (cur, rest)
  | h :: t => if colw wide h > w then handleLong wide w curLen cur h t else (cur, rest)

/-- The trailing-whitespace drop of `_wrap_chunks` (lines 75-76). -/
def trimTrail (cur2 : List (List Char)) : List (List Char) :=
  match cur2.getLast? with
  | some lc => if pyStrip lc = [] then cur2.dropLast else cur2
  | none => cur2

/-- One iteration of the outer `while chunks:` loop of
`TextWrapper._wrap_chunks` (lines 48-80) under the default options
(`initial_indent` and `subsequent_indent` empty, `drop_whitespace` and
`break_long_words` true).  `first` is true while no line has been
emitted yet (Python's `lines` being empty).  Steps: drop a leading
whitespace chunk once lines exist, pack greedily, handle an over-wide
head chunk, drop a trailing whitespace chunk, and emit the joined line
if nonempty.  Returns (emitted line, remaining chunks). -/
def wrapStep (w : Int) (first : Bool) (c0 : List Char) (r0 : List (List Char)) :
    Option (List Char) × List (List Char) :=
  let chunks := dropLead first c0 r0
  let p := packChunks wide w 0 chunks
  let q := longWordStep wide w p.2.2 p.1 p.2.1
  let cur3 := trimTrail q.1
  (if cur3 = [] then none else some cur3.flatten, q.2)

/-- The outer `while chunks:` loop of `TextWrapper._wrap_chunks`: the
source pops chunks from the end of a reversed list, modelled here as
taking from the front.  One unit of fuel per iteration; the source
loops forever at width 1 on a multi-character chunk, which surfaces
here as `fuelOut`. -/
def wrapLoop (w : Int) : Nat → Bool → List (List Char) → WrapRes
  | 0, _, _ => .fuelOut
  | _ + 1, _, [] => .ok []
  | fuel + 1, first, c0 :: r0 =>
    let st := wrapStep wide w first c0 r0
    match st.1 with
    | none => wrapLoop w fuel first st.2
    | some line =>
      match wrapLoop w fuel false st.2 with
      | .ok ls => .ok (line :: ls)
      | e => e

/-- `TextWrapper._wrap_chunks` (lines 37-81): raise for `width ≤ 0`,
otherwise run the wrapping loop. -/
def wrapChunks (w : Int) (fuel : Nat) (chunks : List (List Char)) : WrapRes :=
  if w ≤ 0 then .widthErr else wrapLoop wide w fuel true chunks

/-- `my_wrap(text, width)` (mdx.py lines 22-24) = `TextWrapper.wrap`:
munge whitespace, split into chunks, wrap. -/
def wrapText (w : Int) (fuel : Nat) (text : List Char) : WrapRes :=
  wrapChunks wide w fuel (mySplit wide (munge text))

end Wrapper

/-! ## The tree model

Docutils nodes: a kind (the node's class name), kind-specific attributes
and an ordered list of children.  `other` stands for any node class the
translator has no handler for.  The `section` node class is spelled
`section'` because `section` is a Lean keyword. -/

/-- Node kinds: the docutils / sphinx node classes the translator
registers hooks for, plus `other` for unregistered classes. -/
inductive NodeKind where
  | Text | document | section' | topic | sidebar | rubric | compound
  | glossary | title | subtitle | attribution
  | desc | desc_signature | desc_signature_line | desc_content | desc_inline
  | desc_sig_space | desc_name | desc_addname | desc_type | desc_returns
  | desc_parameterlist | desc_type_parameterlist | desc_parameter
  | desc_type_parameter | desc_optional | desc_annot
  | paragraph | reference | title_reference | image | target | comment
  | admonition | attention | caution | danger | error | hint | important
  | note | tip | warning | seealso
  | definition | definition_list | definition_list_item | list_item
  | bullet_list | enumerated_list | term | classifier
  | field_list | field | field_name | field_body
  | emphasis | literal_emphasis | strong | literal_strong | literal
  | literal_block | inline | problematic | index | toctree
  | table | thead | tbody | tgroup | colspec | row | entry | flag
  | other : String → NodeKind

/-- Injective code of a node kind, used to decide equality without a
quadratic case split. -/
def NodeKind.toCode : NodeKind → Nat ⊕ String
  | .Text => .inl 0 | .document => .inl 1 | .section' => .inl 2
  | .topic => .inl 3 | .sidebar => .inl 4 | .rubric => .inl 5
  | .compound => .inl 6 | .glossary => .inl 7 | .title => .inl 8
  | .subtitle => .inl 9 | .attribution => .inl 10 | .desc => .inl 11
  | .desc_signature => .inl 12 | .desc_signature_line => .inl 13
  | .desc_content => .inl 14 | .desc_inline => .inl 15
  | .desc_sig_space => .inl 16 | .desc_name => .inl 17
  | .desc_addname => .inl 18 | .desc_type => .inl 19
  | .desc_returns => .inl 20 | .desc_parameterlist => .inl 21
  | .desc_type_parameterlist => .inl 22 | .desc_parameter => .inl 23
  | .desc_type_parameter => .inl 24 | .desc_optional => .inl 25
  | .desc_annot => .inl 26 | .paragraph => .inl 27
  | .reference => .inl 28 | .title_reference => .inl 29
  | .image => .inl 30 | .target => .inl 31 | .comment => .inl 32
  | .admonition => .inl 33 | .attention => .inl 34 | .caution => .inl 35
  | .danger => .inl 36 | .error => .inl 37 | .hint => .inl 38
  | .important => .inl 39 | .note => .inl 40 | .tip => .inl 41
  | .warning => .inl 42 | .seealso => .inl 43 | .definition => .inl 44
  | .definition_list => .inl 45 | .definition_list_item => .inl 46
  | .list_item => .inl 47 | .bullet_list => .inl 48
  | .enumerated_list => .inl 49 | .term => .inl 50 | .classifier => .inl 51
  | .field_list => .inl 52 | .field => .inl 53 | .field_name => .inl 54
  | .field_body => .inl 55 | .emphasis => .inl 56
  | .literal_emphasis => .inl 57 | .strong => .inl 58
  | .literal_strong => .inl 59 | .literal => .inl 60
  | .literal_block => .inl 61 | .inline => .inl 62
  | .problematic => .inl 63 | .index => .inl 64 | .toctree => .inl 65
  | .table => .inl 66 | .thead => .inl 67 | .tbody => .inl 68
  | .tgroup => .inl 69 | .colspec => .inl 70 | .row => .inl 71
  | .entry => .inl 72 | .flag => .inl 73
  | .other s => .inr s

/-- Left inverse of `NodeKind.toCode`. -/
def NodeKind.ofCode : Nat ⊕ String → NodeKind
  | .inl 0 => .Text | .inl 1 => .document | .inl 2 => .section'
  | .inl 3 => .topic | .inl 4 => .sidebar | .inl 5 => .rubric
  | .inl 6 => .compound | .inl 7 => .glossary | .inl 8 => .title
  | .inl 9 => .subtitle | .inl 10 => .attribution | .inl 11 => .desc
  | .inl 12 => .desc_signature | .inl 13 => .desc_signature_line
  | .inl 14 => .desc_content | .inl 15 => .desc_inline
  | .inl 16 => .desc_sig_space | .inl 17 => .desc_name
  | .inl 18 => .desc_addname | .inl 19 => .desc_type
  | .inl 20 => .desc_returns | .inl 21 => .desc_parameterlist
  | .inl 22 => .desc_type_parameterlist | .inl 23 => .desc_parameter
  | .inl 24 => .desc_type_parameter | .inl 25 => .desc_optional
  | .inl 26 => .desc_annot | .inl 27 => .paragraph
  | .inl 28 => .reference | .inl 29 => .title_reference
  | .inl 30 => .image | .inl 31 => .target | .inl 32 => .comment
  | .inl 33 => .admonition | .inl 34 => .attention | .inl 35 => .caution
  | .inl 36 => .danger | .inl 37 => .error | .inl 38 => .hint
  | .inl 39 => .important | .inl 40 => .note | .inl 41 => .tip
  | .inl 42 => .warning | .inl 43 => .seealso | .inl 44 => .definition
  | .inl 45 => .definition_list | .inl 46 => .definition_list_item
  | .inl 47 => .list_item | .inl 48 => .bullet_list
  | .inl 49 => .enumerated_list | .inl 50 => .term | .inl 51 => .classifier
  | .inl 52 => .field_list | .inl 53 => .field | .inl 54 => .field_name
  | .inl 55 => .field_body | .inl 56 => .emphasis
  | .inl 57 => .literal_emphasis | .inl 58 => .strong
  | .inl 59 => .literal_strong | .inl 60 => .literal
  | .inl 61 => .literal_block | .inl 62 => .inline
  | .inl 63 => .problematic | .inl 64 => .index | .inl 65 => .toctree
  | .inl 66 => .table | .inl 67 => .thead | .inl 68 => .tbody
  | .inl 69 => .tgroup | .inl 70 => .colspec | .inl 71 => .row
  | .inl 72 => .entry | .inl 73 => .flag
  | .inl _ => .Text
  | .inr s => .other s

/-- Decoding inverts encoding. -/
theorem NodeKind.ofCode_toCode : ∀ k : NodeKind, NodeKind.ofCode k.toCode = k := by
  intro k
  cases k <;> rfl

instance : DecidableEq NodeKind := fun a b =>
  if h : a.toCode = b.toCode then
    .isTrue (by
      have := congrArg NodeKind.ofCode h
      rwa [NodeKind.ofCode_toCode, NodeKind.ofCode_toCode] at this)
  else .isFalse (fun hh => h (by rw [hh]))

/-- Kind-specific node attributes (docutils attribute dictionary);
absent attributes are `none`.  `content` is the datum of a `Text` node. -/
structure Attrs where
  refuri : Option (List Char)
  refid : Option (List Char)
  uri : Option (List Char)
  alt : Option (List Char)
  language : Option (List Char)
  start : Option Int
  colwidth : Option Int
  align : Option (List Char)
  flag_type : Option (List Char)
  message : Option (List Char)
  content : List Char
deriving DecidableEq

/-- The empty attribute dictionary. -/
def noAttrs : Attrs := ⟨none, none, none, none, none, none, none, none, none, none, []⟩

/-- A document-tree node. -/
inductive Node where
  | mk : NodeKind → Attrs → List Node → Node

/-- Kind of a node. -/
def Node.kind : Node → NodeKind
  | .mk k _ _ => k

/-- Attributes of a node. -/
def Node.attrs : Node → Attrs
  | .mk _ a _ => a

/-- Children of a node. -/
def Node.children : Node → List Node
  | .mk _ _ cs => cs

/-- A `Text` leaf carrying the given datum. -/
def textNode (s : String) : Node :=
  .mk .Text { noAttrs with content := chars s } []

mutual
/-- `node.astext()`: concatenation of the data of all `Text` descendants. -/
def astext : Node → List Char
  | .mk k a cs => (match k with | .Text => a.content | _ => []) ++ astextKids cs
def astextKids : List Node → List Char
  | [] => []
  | c :: r => astext c ++ astextKids r
end

mutual
/-- `len(list(node.findall(nodes.classifier)))`: number of `classifier`
nodes in the subtree (including the node itself if it is one). -/
def countCl : Node → Nat
  | .mk k _ cs => (match k with | .classifier => 1 | _ => 0) + countClKids cs
def countClKids : List Node → Nat
  | [] => 0
  | c :: r => countCl c + countClKids r
end

/-! ## Translator state

The buffers of `self.states` hold entries that in the source are pairs
`(itemindent, payload)` with the sentinel `itemindent = -1` marking a raw
text run (payload a `str`) and `itemindent ≥ 0` marking an already
laid-out block (payload a list of lines); here the two shapes are the
two constructors of `Entry`.  The top of each stack (`self.states[-1]`,
`self.stateindent[-1]`, `self.list_counter[-1]`) is the HEAD of the
corresponding Lean list. -/

/-- One buffer entry: a raw text run to be wrapped later, or an already
laid-out block of lines with a relative indent. -/
inductive Entry where
  | raw : List Char → Entry
  | block : Int → List (List Char) → Entry
deriving DecidableEq

/-- `STDINDENT` (mdx.py line 19). -/
def STDINDENT : Int := 4

/-- The mutable state of `MdxTranslator`.  Fields beyond the source's
`__init__` are: `loggedUnknown` — the diagnostics log written by
`super().unknown_visit` (modelled from the spec: one diagnostic entry,
carrying the node's class name, per call); `classifier_count` — the
`_classifier_count_in_li` attribute (0 before it is first assigned;
Python would raise `AttributeError` on a premature read); `wrapErrored`
and `wrapDiverged` — ghost flags recording that a wrap call raised
`ValueError` resp. failed to terminate (in Python the former aborts the
run and the latter hangs it); `minStates` — a ghost tracker holding the
minimum length of `states` observed immediately after any pop;
`markers` — a ghost trace of the list-item marker prefixes emitted by
`depart_list_item`, each tagged with the `list_counter` depth. -/
structure TState where
  sectionlevel : Int
  messages : List (List Char)
  warned : List String
  states : List (List Entry)
  stateindent : List Int
  context : List (List Char)
  list_counter : List Int
  in_literal : Bool
  desc_count : Int
  max_line_width : Int
  reference_uri : List Char
  table_header : List (List Char)
  table_body : List (List (List Char))
  current_row : List (List Char)
  in_table_header : Bool
  colwidths : List Int
  colaligns : List (List Char)
  classifier_count : Int
  body : List Char
  loggedUnknown : List String
  wrapErrored : Bool
  wrapDiverged : Bool
  minStates : Nat
  markers : List (Nat × List Char)
deriving DecidableEq

/-- `MdxTranslator.__init__` (with the default `max_line_width = 120`). -/
def initState : TState where
  sectionlevel := 0
  messages := []
  warned := []
  states := [[]]
  stateindent := [0]
  context := []
  list_counter := []
  in_literal := false
  desc_count := 0
  max_line_width := 120
  reference_uri := []
  table_header := []
  table_body := []
  current_row := []
  in_table_header := false
  colwidths := []
  colaligns := []
  classifier_count := 0
  body := []
  loggedUnknown := []
  wrapErrored := false
  wrapDiverged := false
  minStates := 1
  markers := []

/-- `add_text` (mdx.py line 159): append a raw run to the top buffer.
(An empty stack would be an `IndexError` in Python; modelled as a no-op,
unreachable in the verified runs.) -/
def addText (t : List Char) (s : TState) : TState :=
  match s.states with
  | [] => s
  | b :: rest => { s with states := (b ++ [.raw t]) :: rest }

/-- `new_state` (mdx.py lines 162-164): push an empty buffer. -/
def newState (ind : Int) (s : TState) : TState :=
  { s with states := [] :: s.states, stateindent := ind :: s.stateindent }

/-- Pop the top buffer (`self.states.pop()`), recording the stack length
left behind in the ghost `minStates` tracker.  Popping an empty stack is
an `IndexError` in Python; it is recorded as `minStates = 0`. -/
def popStateBuf (s : TState) : List Entry × TState :=
  match s.states with
  | [] => ([], { s with minStates := 0 })
  | b :: rest => (b, { s with states := rest, minStates := min s.minStates rest.length })

/-- `self.stateindent.pop()`. -/
def popIndent (s : TState) : Int × TState :=
  match s.stateindent with
  | [] => (0, s)
  | i :: r => (i, { s with stateindent := r })

/-- Fuel given to a wrap call: enough outer iterations for every
terminating run of the source loop (which consumes at least one input
character every two iterations whenever it terminates at all). -/
def fuelFor (t : List Char) : Nat := 2 * t.length + 2

section Translator

variable (wide : Char → Bool)

/-- `do_format` (mdx.py lines 193-202) applied to a nonempty `toformat`:
wrap (or split) the joined text, append the terminator lines, and report
whether the wrap call raised (`ValueError` for nonpositive width) or
failed to terminate.  Returns (lines, raised, diverged). -/
def doFormat (wrapF : Bool) (width : Int) (endL : Option (List (List Char)))
    (toformat : List (List Char)) : List (List Char) × Bool × Bool :=
  let joined := toformat.flatten
  let withEnd := fun (ls : List (List Char)) =>
    match endL with
    | some e => ls ++ e
    | none => ls
  if wrapF then
    match wrapText wide width (fuelFor joined) joined with
    | .ok ls => (withEnd ls, false, false)
    | .widthErr => (withEnd [], true, false)
    | .fuelOut => (withEnd [], false, true)
  else (withEnd (pySplitlines joined), false, false)

/-- The content loop of `end_state` (mdx.py lines 204-211): raw runs are
collected into `toformat`; a block entry flushes the collected runs
through `do_format` and is passed through at `indent + itemindent`; a
final flush ends the loop.  Returns (result, raised, diverged). -/
def endLoop (wrapF : Bool) (width : Int) (endL : Option (List (List Char)))
    (indent : Int) :
    List Entry → List (List Char) → List (Int × List (List Char)) × Bool × Bool
  | [], toformat =>
    if toformat = [] then ([], false, false)
    else
      let r := doFormat wide wrapF width endL toformat
      ([(indent, r.1)], r.2.1, r.2.2)
  | .raw t :: rest, toformat => endLoop wrapF width endL indent rest (toformat ++ [t])
  | .block i ls :: rest, toformat =>
    let flushed :=
      if toformat = [] then ([], false, false)
      else
        let r := doFormat wide wrapF width endL toformat
        ([(indent, r.1)], r.2.1, r.2.2)
    let tailRes := endLoop wrapF width endL indent rest []
    (flushed.1 ++ (indent + i, ls) :: tailRes.1,
     flushed.2.1 || tailRes.2.1, flushed.2.2 || tailRes.2.2)

/-- The `first` prefix splice of `end_state` (mdx.py lines 212-219):
splice the prefix into the first emitted line, or give it a line of its
own when the first finalized line is empty. -/
def spliceFirst (indent : Int) (first : Option (List Char))
    (result : List (Int × List (List Char))) : List (Int × List (List Char)) :=
  match first, result with
  | none, _ => result
  | some _, [] => result
  | some f, (i0, ls0) :: rest0 =>
    let newindent := i0 - indent
    if ls0 = [[]] then (newindent, [f]) :: (i0, ls0) :: rest0
    else
      match ls0 with
      | [] => (newindent, [f]) :: (i0, []) :: rest0
      | l0 :: lrest => (newindent, [f ++ l0]) :: (i0, lrest) :: rest0

/-- `end_state` (mdx.py lines 181-221): pop the top buffer, wrap its raw
runs at `max_line_width - sum(stateindent)`, splice the optional first
prefix, and extend the new top buffer with the finalized
(indent, lines) groups. -/
def endState (wrapF : Bool) (endL : Option (List (List Char)))
    (first : Option (List Char)) (s : TState) : TState :=
  let c := popStateBuf s
  let content := c.1
  let maxindent := c.2.stateindent.sum
  let pi := popIndent c.2
  let indent := pi.1
  let s2 := pi.2
  let er := endLoop wide wrapF (s2.max_line_width - maxindent) endL indent content []
  let result := spliceFirst indent first er.1
  let s3 := { s2 with
    wrapErrored := s2.wrapErrored || er.2.1
    wrapDiverged := s2.wrapDiverged || er.2.2 }
  match s3.states with
  | [] => s3
  | b :: rest =>
    { s3 with states := (b ++ result.map (fun p => Entry.block p.1 p.2)) :: rest }

/-- One formatted line of the final document body: `" " * indent + line`
for a nonempty line of a block, the bare characters of a raw run
(`" " * -1` is empty and Python iterates a `str` by characters), and
`""` for an empty line (the `line and …` guard). -/
def bodyLines (buf : List Entry) : List (List Char) :=
  buf.flatMap fun e =>
    match e with
    | .raw t => t.map (fun c => [c])
    | .block i ls =>
      ls.map (fun l => if l = [] then [] else List.replicate i.toNat ' ' ++ l)

/-! ### The per-node-kind hooks (mdx.py lines 230-807)

Each `visit_x` returns the new state and a flag that is true when the
source hook raises `nodes.SkipNode` (children and the departure hook are
then skipped by the driver).  `par` is the information the source reads
through `node.parent`: the parent's kind and its number of children. -/

/-- Parent kinds whose `title` child is rendered inline
(`isinstance(node.parent, nodes.Admonition)`). -/
def isAdmonitionK : NodeKind → Bool
  | .admonition | .attention | .caution | .danger | .error | .hint
  | .important | .note | .tip | .warning | .seealso => true
  | _ => false

/-- The condition of `visit_paragraph` / `depart_paragraph`: sole child
of a `list_item`, `entry`, `desc_content` or `field_body`. -/
def inlinePara : Option (NodeKind × Nat) → Bool
  | some (k, len) =>
    (k == .list_item || k == .entry || k == .desc_content || k == .field_body)
      && len == 1
  | none => false

/-- Modelled from the spec: `sphinx.locale.admonitionlabels` (localized
admonition-label strings supplied by an external collaborator), with the
English defaults. -/
def admonitionLabel : NodeKind → List Char
  | .attention => chars "Attention"
  | .caution => chars "Caution"
  | .danger => chars "Danger"
  | .error => chars "Error"
  | .hint => chars "Hint"
  | .important => chars "Important"
  | .note => chars "Note"
  | .tip => chars "Tip"
  | .warning => chars "Warning"
  | .seealso => chars "See also"
  | _ => []

/-- `visit_Text` (mdx.py lines 230-238): text under a `reference` parent
is suppressed; in literal mode `<` is escaped as `\<`. -/
def visit_Text (par : Option (NodeKind × Nat)) (content : List Char) (s : TState) : TState :=
  match par with
  | some (.reference, _) => s
  | _ =>
    if s.in_literal then
      addText (content.flatMap fun c => if c = '<' then ['\\', '<'] else [c]) s
    else addText content s

/-- `visit_document`. -/
def visit_document (s : TState) : TState := newState 0 s

/-- `depart_document` (mdx.py lines 246-255): finalize the root buffer
and assemble `self.body` from `self.states[0]` (the bottom buffer). -/
def depart_document (s : TState) : TState :=
  let s1 := endState wide true (some [[]]) none s
  match s1.states.getLast? with
  | some b => { s1 with body := pyJoin ['\n'] (bodyLines b) }
  | none => s1

/-- `visit_reference` (mdx.py lines 465-474): emit `[text](uri)` from
`refuri`, or `[text](#refid)` from `refid`, else record a diagnostic and
skip the node. -/
def visit_reference (n : Node) (s : TState) : TState × Bool :=
  match n.attrs.refuri with
  | some u =>
    (addText (chars "[" ++ astext n ++ chars "](" ++ u ++ chars ")")
      { s with reference_uri := u }, false)
  | none =>
    match n.attrs.refid with
    | some i =>
      let u := '#' :: i
      (addText (chars "[" ++ astext n ++ chars "](" ++ u ++ chars ")")
        { s with reference_uri := u }, false)
    | none =>
      ({ s with messages := s.messages ++
          [chars "References must have \"refuri\" or \"refid\" attribute."] }, true)

/-- `_depart_admonition` (mdx.py lines 509-512). -/
def admonitionDepart (k : NodeKind) (s : TState) : TState :=
  let label := admonitionLabel k
  let s1 := { s with stateindent :=
    match s.stateindent with
    | [] => []
    | i :: r => (i + (label.length : Int)) :: r }
  endState wide true (some [[]]) (some (label ++ chars ": ")) s1

/-- Push onto `list_counter`. -/
def listPush (v : Int) (s : TState) : TState :=
  { s with list_counter := v :: s.list_counter }

/-- Pop `list_counter`. -/
def listPop (s : TState) : TState :=
  { s with list_counter := s.list_counter.tail }

/-- `visit_list_item` (mdx.py lines 556-566): bullet lists push a
2-space state, definition lists do nothing, enumerated lists increment
the counter and push a state sized to the marker. -/
def visit_list_item (s : TState) : TState :=
  match s.list_counter with
  | [] => s
  | c :: r =>
    if c = -1 then newState 2 s
    else if c = -2 then s
    else newState ((intRepr (c + 1)).length + 2) { s with list_counter := (c + 1) :: r }

/-- The bullet branch of `depart_list_item` (mdx.py lines 569-571):
finalize the item buffer with first-line prefix `"- "` and drop the
trailing blank line; the marker is recorded in the ghost trace. -/
def depart_li_bullet (s : TState) : TState :=
  let s0 := { s with markers := s.markers ++ [(s.list_counter.length, chars "- ")] }
  let s1 := endState wide false (some [[]]) (some (chars "- ")) s0
  match s1.states with
  | [] => s1
  | b :: rest => { s1 with states := b.dropLast :: rest }

/-- The enumerated branch of `depart_list_item` (mdx.py lines 574-575):
finalize the item buffer with first-line prefix `"<counter>. "`; the
marker is recorded in the ghost trace. -/
def depart_li_enum (c : Int) (s : TState) : TState :=
  let mark := intRepr c ++ chars ". "
  let s0 := { s with markers := s.markers ++ [(s.list_counter.length, mark)] }
  endState wide false none (some mark) s0

/-- `depart_list_item` (mdx.py lines 568-575).  The marker prefix handed
to `end_state` is also recorded in the ghost `markers` trace together
with the current `list_counter` depth. -/
def depart_list_item (s : TState) : TState :=
  match s.list_counter with
  | [] => s
  | c :: _ =>
    if c = -1 then depart_li_bullet wide s
    else if c = -2 then s
    else depart_li_enum wide c s

/-- `depart_term` (mdx.py lines 595-597): finalize the term buffer only
when no classifiers are pending. -/
def depart_term (s : TState) : TState :=
  if s.classifier_count = 0 then endState wide true none none s else s

/-- `depart_classifier` (mdx.py lines 602-605). -/
def depart_classifier (s : TState) : TState :=
  let s1 := { s with classifier_count := s.classifier_count - 1 }
  if s1.classifier_count = 0 then endState wide true none none s1 else s1

/-- Alignment-separator cell for one column (`depart_table`,
mdx.py lines 723-732). -/
def sepCell (p : Int × List Char) : List Char :=
  let width := p.1
  let align := p.2
  if align = chars "left" then ':' :: List.replicate (width - 1).toNat '-'
  else if align = chars "right" then List.replicate (width - 1).toNat '-' ++ [':']
  else if align = chars "center" then
    ':' :: List.replicate (width - 2).toNat '-' ++ [':']
  else List.replicate width.toNat '-'

/-- A pipe-delimited table row line `"| a | b |\n"`. -/
def rowLine (cells : List (List Char)) : List Char :=
  chars "| " ++ pyJoin (chars " | ") cells ++ chars " |" ++ ['\n']

/-- The body-row loop of `depart_table` (mdx.py lines 735-736). -/
def addRows : List (List (List Char)) → TState → TState
  | [], s => s
  | r :: t, s => addRows t (addText (rowLine r) s)

/-- `depart_table` (mdx.py lines 719-739): header row, separator row
(Python pairs `colwidths` with `colaligns` by index; modelled with
`zip`), body rows, a blank line, then finalize without wrapping. -/
def depart_table (s : TState) : TState :=
  let s1 :=
    if s.table_header ≠ [] then
      let sa := addText (rowLine s.table_header) s
      addText (rowLine ((s.colwidths.zip s.colaligns).map sepCell)) sa
    else s
  let s2 := addRows s.table_body s1
  endState wide false (some [[]]) none (addText ['\n'] s2)

/-- The generator of `depart_entry`: the stripped text of each nonempty
(truthy) entry of the cell buffer — for a block entry, its first line. -/
def cellPieces (buf : List Entry) : List (List Char) :=
  buf.filterMap fun e =>
    match e with
    | .raw t => if t = [] then none else some (pyStrip t)
    | .block _ ls => if ls = [] then none else some (pyStrip (ls.headD []))

/-- The single-line cell text appended by `depart_entry`: pieces joined
with `self.nl` (a newline), then `replace("\n", "")`. -/
def cellText (buf : List Entry) : List Char :=
  removeNl (pyJoin ['\n'] (cellPieces buf))

/-- `depart_entry` (mdx.py lines 779-786): pop the cell buffer, take the
(stripped) text of each nonempty entry — the first line only, for block
entries — join with newlines, strip the newlines back out, and append
the result to the current row. -/
def depart_entry (s : TState) : TState :=
  let c := popStateBuf s
  let s1 := { c.2 with current_row := c.2.current_row ++ [cellText c.1] }
  { s1 with stateindent := s1.stateindent.tail }

/-- `visit_flag` (mdx.py lines 792-803): strip `":::"` from the message,
map the flag type to a severity, open the callout fence and emit the
message line. -/
def visit_flag (n : Node) (s : TState) : TState :=
  let ft := n.attrs.flag_type.getD []
  let msg := replTriple (n.attrs.message.getD [])
  let setFlag :=
    if ft = chars "experimental" then chars "danger"
    else if ft = chars "deprecated" then chars "warning"
    else chars "info"
  addText (msg ++ ['\n'])
    (addText (chars ":::" ++ setFlag ++ ['['] ++ ft ++ [']'] ++ ['\n'])
      (newState STDINDENT s))

/-- `unknown_visit` (mdx.py lines 223-228): log a diagnostic once per
node class (the logging itself is `super().unknown_visit`, modelled from
the spec as one entry carrying the class name), then skip the node. -/
def unknown_visit (name : String) (s : TState) : TState :=
  if name ∈ s.warned then s
  else { s with
    loggedUnknown := s.loggedUnknown ++ [name]
    warned := s.warned ++ [name] }

/-- The visit dispatch (`dispatch_visit` resolving `visit_<class>`):
returns the new state and whether `nodes.SkipNode` was raised. -/
def visitHook (par : Option (NodeKind × Nat)) (n : Node) (s : TState) : TState × Bool :=
  match n.kind with
  | .Text => (visit_Text par n.attrs.content s, false)
  | .document => (visit_document s, false)
  | .section' => ({ s with sectionlevel := s.sectionlevel + 1 }, false)
  | .topic | .sidebar => (newState 0 s, false)
  | .rubric => (newState 0 s, false)
  | .compound | .glossary => (s, false)
  | .title =>
    (match par with
     | some (k, _) =>
       if isAdmonitionK k then (addText (astext n ++ chars ": ") s, true)
       else (newState 0 s, false)
     | none => (newState 0 s, false))
  | .subtitle | .attribution => (s, false)
  | .desc =>
    (addText (chars "<dl>") (newState 0 { s with desc_count := s.desc_count + 1 }), false)
  | .desc_signature => (addText (chars "<dt>") (newState STDINDENT s), false)
  | .desc_signature_line => (s, false)
  | .desc_content => (addText (chars "<dd>") (newState STDINDENT s), false)
  | .desc_inline => (addText (chars "<span>") s, false)
  | .desc_sig_space | .desc_name | .desc_addname | .desc_type => (s, false)
  | .desc_returns => (addText (chars " -> ") s, false)
  | .desc_parameterlist => (s, true)
  | .desc_type_parameterlist | .desc_parameter | .desc_type_parameter
  | .desc_optional | .desc_annot => (s, false)
  | .paragraph => (if inlinePara par then s else newState 0 s, false)
  | .reference => visit_reference n s
  | .title_reference => (addText (chars "xxx") s, false)
  | .image =>
    (addText (chars "![" ++ (n.attrs.alt.getD []) ++ chars "](" ++
      (n.attrs.uri.getD []) ++ chars ")") s, false)
  | .target => (s, false)
  | .comment => (s, true)
  | .admonition => (newState 0 s, false)
  | .attention | .caution | .danger | .error | .hint | .important
  | .note | .tip | .warning | .seealso => (newState 2 s, false)
  | .definition => (newState STDINDENT s, false)
  | .definition_list => (listPush (-2) s, false)
  | .definition_list_item => ({ s with classifier_count := countCl n }, false)
  | .list_item => (visit_list_item s, false)
  | .bullet_list => (newState 2 (listPush (-1) s), false)
  | .enumerated_list => (listPush ((n.attrs.start.getD 1) - 1) s, false)
  | .term => (newState 0 s, false)
  | .classifier => (addText (chars " : ") s, false)
  | .field_list => (newState 0 s, false)
  | .field | .field_name | .field_body => (s, false)
  | .emphasis | .literal_emphasis => (addText (chars "<em>") s, false)
  | .strong | .literal_strong => (addText (chars "<strong>") s, false)
  | .literal => (addText (chars "`") { s with in_literal := true }, false)
  | .literal_block =>
    (addText (chars "```" ++ (n.attrs.language.getD (chars "default")) ++ ['\n'])
      (newState STDINDENT { s with in_literal := true }), false)
  | .inline => (addText (chars "`") { s with in_literal := true }, false)
  | .problematic =>
    (addText (chars "```" ++ ['\n'] ++ astext n ++ ['\n'] ++ chars "```") s, true)
  | .index | .toctree => (s, true)
  | .table =>
    let s1 := newState 0 s
    ({ s1 with
        table_header := []
        table_body := []
        current_row := []
        in_table_header := false }, false)
  | .thead => ({ s with in_table_header := true }, false)
  | .tbody => (s, false)
  | .tgroup => ({ s with colwidths := [], colaligns := [] }, false)
  | .colspec =>
    ({ s with
        colwidths := s.colwidths ++ [n.attrs.colwidth.getD 0]
        colaligns := s.colaligns ++ [n.attrs.align.getD (chars "left")] }, false)
  | .row => ({ s with current_row := [] }, false)
  | .entry => (newState 0 s, false)
  | .flag => (visit_flag n s, false)
  | .other name => (unknown_visit name s, true)

/-- The departure dispatch (`dispatch_departure` resolving
`depart_<class>`); only reached when the visit hook did not skip. -/
def departHook (par : Option (NodeKind × Nat)) (n : Node) (s : TState) : TState :=
  match n.kind with
  | .Text => s
  | .document => depart_document wide s
  | .section' => { s with sectionlevel := s.sectionlevel - 1 }
  | .topic | .sidebar => endState wide false (some [[]]) none s
  | .rubric => endState wide true (some [[]]) none (addText (chars ":") s)
  | .compound | .glossary => s
  | .title =>
    endState wide true (some [[]])
      (some (List.replicate s.sectionlevel.toNat '#' ++ [' '])) s
  | .subtitle | .attribution => s
  | .desc =>
    let s1 := endState wide false none none (addText (chars "</dl>") s)
    { s1 with desc_count := s1.desc_count - 1 }
  | .desc_signature => endState wide false none none (addText (chars "</dt>") s)
  | .desc_signature_line => s
  | .desc_content => endState wide false none none (addText (chars "</dd>") s)
  | .desc_inline => addText (chars "</span>") s
  | .desc_sig_space | .desc_name | .desc_addname | .desc_type
  | .desc_returns => s
  | .desc_parameterlist => s
  | .desc_type_parameterlist | .desc_parameter | .desc_type_parameter
  | .desc_optional | .desc_annot => s
  | .paragraph => if inlinePara par then s else endState wide false (some [[]]) none s
  | .reference => { s with reference_uri := [] }
  | .title_reference => addText (chars "xxx") s
  | .image => s
  | .target => s
  | .comment => s
  | .admonition => endState wide true (some [[]]) none s
  | .attention | .caution | .danger | .error | .hint | .important
  | .note | .tip | .warning | .seealso => admonitionDepart wide n.kind s
  | .definition => endState wide true (some [[]]) none s
  | .definition_list => listPop s
  | .definition_list_item => s
  | .list_item => depart_list_item wide s
  | .bullet_list => endState wide false (some [[]]) none (addText ['\n'] (listPop s))
  | .enumerated_list => listPop s
  | .term => depart_term wide s
  | .classifier => depart_classifier wide s
  | .field_list => endState wide false none none s
  | .field => s
  | .field_name => addText (chars ": ") s
  | .field_body => s
  | .emphasis | .literal_emphasis => addText (chars "</em>") s
  | .strong | .literal_strong => addText (chars "</strong>") s
  | .literal => addText (chars "`") { s with in_literal := false }
  | .literal_block =>
    endState wide false (some [chars "```"]) none { s with in_literal := false }
  | .inline => addText (chars "`") { s with in_literal := false }
  | .problematic => s
  | .index | .toctree => s
  | .table => depart_table wide s
  | .thead => { s with in_table_header := false }
  | .tbody => s
  | .tgroup => s
  | .colspec => s
  | .row =>
    if s.in_table_header then { s with table_header := s.current_row }
    else { s with table_body := s.table_body ++ [s.current_row] }
  | .entry => depart_entry s
  | .flag => endState wide false (some [[]]) none (addText (['\n'] ++ chars ":::" ++ ['\n']) s)
  | .other _ => s

mutual
/-- `document.walkabout`: depth-first pre/post traversal; a raised
`nodes.SkipNode` skips the children and the departure hook. -/
def walkNode (par : Option (NodeKind × Nat)) (n : Node) (s : TState) : TState :=
  match n with
  | .mk k a cs =>
    let v := visitHook par (.mk k a cs) s
    if v.2 then v.1
    else departHook wide par (.mk k a cs) (walkKids (some (k, cs.length)) cs v.1)
/-- Traverse a list of siblings left to right. -/
def walkKids (par : Option (NodeKind × Nat)) : List Node → TState → TState
  | [], s => s
  | c :: r, s => walkKids par r (walkNode par c s)
end

/-- Result of a whole translation run. -/
inductive TransRes where
  | ok : List Char → TransRes
  | invalidWidth : TransRes
  | divergence : TransRes
deriving DecidableEq

/-- `MdxWriter.translate` (mdx.py lines 134-137): run the traversal from
a fresh translator and return `self.visitor.body`; a wrap call that
raised `ValueError` aborts the run with no output (and one that hangs
never produces output). -/
def translate (t : Node) : TransRes :=
  let fin := walkNode wide none t initState
  if fin.wrapErrored then .invalidWidth
  else if fin.wrapDiverged then .divergence
  else .ok fin.body

end Translator

/-! ## Specification-side definitions and well-formedness

`maxFitLen` and `c4ClaimText` follow the SPEC's wording (for comparison
against the source-derived functions); the `wf` predicates formalise
"well-formed document tree": terms, classifiers and list items occur
only inside their docutils containers, in schema order. -/

/-- The length of the longest prefix of `word` whose display-column
width is at most `sl` — the split point as the spec describes it
("the last character boundary whose cumulative display width does not
exceed the remaining space"). -/
def maxFitLen (wide : Char → Bool) : List Char → Int → Nat
  | [], _ => 0
  | c :: r, sl => if cw wide c ≤ sl then 1 + maxFitLen wide r (sl - cw wide c) else 0

/-- A chunk as produced by `TextWrapper._split`: nonempty, and either
all width-1 characters or a single wide character. -/
def goodChunk (wide : Char → Bool) (c : List Char) : Prop :=
  c ≠ [] ∧ ((∀ x ∈ c, wide x = false) ∨ ∃ ch, c = [ch] ∧ wide ch = true)

/-- The lines a buffer entry contributes, for the claim-side reading of
`depart_entry`. -/
def entryLines : Entry → List (List Char)
  | .raw t => [t]
  | .block _ ls => ls

/-- The cell text as claim C4 describes it: the finalized buffer lines
joined with a single space, stripped, embedded newlines removed. -/
def c4ClaimText (buf : List Entry) : List Char :=
  removeNl (pyStrip (pyJoin [' '] (buf.flatMap entryLines)))

mutual
/-- Subtree size (number of nodes), the induction measure. -/
def nsize : Node → Nat
  | .mk _ _ cs => 1 + nsizeKids cs
/-- Total size of a list of subtrees. -/
def nsizeKids : List Node → Nat
  | [] => 0
  | c :: r => nsize c + nsizeKids r
end

mutual
/-- No node of a kind that reads or writes `_classifier_count_in_li`
(`term`, `classifier`, `definition_list_item`) occurs in the subtree. -/
def noCnt : Node → Bool
  | .mk k _ cs =>
    (match k with
     | .term | .classifier | .definition_list_item => false
     | _ => true) && noCntKids cs
/-- `noCnt` over a list of subtrees. -/
def noCntKids : List Node → Bool
  | [] => true
  | c :: r => noCnt c && noCntKids r
end

/-- Whether a node is a `classifier` node. -/
def isClNode : Node → Bool
  | .mk .classifier _ _ => true
  | .mk _ _ _ => false

mutual
/-- Well-formedness of a document tree (schema conformance): list items
only as direct children of bullet/enumerated lists, definition-list
items only inside definition lists and shaped `term classifier* rest`,
terms and classifiers only in that position with subtrees free of
count-touching kinds, everything else arbitrary. -/
def wfN : Node → Bool
  | .mk k _ cs =>
    match k with
    | .bullet_list | .enumerated_list => wfItems cs
    | .definition_list => wfDLItems cs
    | .definition_list_item | .term | .classifier | .list_item => false
    | _ => wfKids cs
/-- Children of a regular node: each well-formed (which excludes the
bare kinds). -/
def wfKids : List Node → Bool
  | [] => true
  | c :: r => wfN c && wfKids r
/-- Children of a bullet/enumerated list: list items with regular
children. -/
def wfItems : List Node → Bool
  | [] => true
  | c :: r => wfItem c && wfItems r
/-- A list item with regular children. -/
def wfItem : Node → Bool
  | .mk .list_item _ ics => wfKids ics
  | .mk _ _ _ => false
/-- Children of a definition list: definition-list items of the shape
`term classifier* rest`. -/
def wfDLItems : List Node → Bool
  | [] => true
  | c :: r => wfDLItem c && wfDLItems r
/-- A definition-list item of the shape `term classifier* rest`. -/
def wfDLItem : Node → Bool
  | .mk .definition_list_item _ ics => wfDLI ics
  | .mk _ _ _ => false
/-- Children of a definition-list item: a term (with regular,
count-free children) followed by classifiers and then regular rest. -/
def wfDLI : List Node → Bool
  | [] => false
  | t :: rest => wfTerm t && wfDLIcls rest
/-- The term of a definition-list item: regular, count-free children. -/
def wfTerm : Node → Bool
  | .mk .term _ tcs => noCntKids tcs && wfKids tcs
  | .mk _ _ _ => false
/-- The classifiers (with regular, count-free children) and the regular
rest of a definition-list item. -/
def wfDLIcls : List Node → Bool
  | [] => true
  | c :: r => if isClNode c then wfClsHead c && wfDLIcls r else wfN c && wfKids r
/-- A classifier with regular, count-free children. -/
def wfClsHead : Node → Bool
  | .mk .classifier _ ccs => noCntKids ccs && wfKids ccs
  | .mk _ _ _ => false
end

/-- A well-formed document: a `document` root with regular children. -/
def wfDoc : Node → Bool
  | .mk .document _ cs => wfKids cs
  | _ => false

/-- The invariant of the unknown-kind diagnostics log: entries are
pairwise distinct, and every logged kind has been marked as warned. -/
def loggedInv (s : TState) : Prop :=
  s.loggedUnknown.Nodup ∧ ∀ x ∈ s.loggedUnknown, x ∈ s.warned

/-- Relation between the states before and after walking a well-formed
subtree: the buffer stack is at least as tall, the minimum stack length
witnessed at pops stays at or above the smaller of the entry minimum and
the entry stack height, the list-counter stack is restored, and any new
list markers were emitted at a strictly deeper counter depth. -/
def preservesCtx (s t : TState) : Prop :=
  s.states.length ≤ t.states.length ∧
  min s.minStates s.states.length ≤ t.minStates ∧
  t.list_counter = s.list_counter ∧
  ∃ new, t.markers = s.markers ++ new ∧ ∀ m ∈ new, s.list_counter.length < m.1

/-- Two states with the same stack height, pop minimum, list counter
and marker trace. -/
def ctxEq (s t : TState) : Prop :=
  t.states.length = s.states.length ∧ t.minStates = s.minStates ∧
  t.list_counter = s.list_counter ∧ t.markers = s.markers

/-- `t` is `s` with one more buffer pushed (as far as the tracked
context goes). -/
def pushCtx (s t : TState) : Prop :=
  t.states.length = s.states.length + 1 ∧ t.minStates = s.minStates ∧
  t.list_counter = s.list_counter ∧ t.markers = s.markers

/-- `t` is `s` with the top buffer popped (as far as the tracked
context goes): height down one, the new height recorded in the pop
minimum. -/
def popCtx (s t : TState) : Prop :=
  t.states.length = s.states.length - 1 ∧
  t.minStates = min s.minStates (s.states.length - 1) ∧
  t.list_counter = s.list_counter ∧ t.markers = s.markers

/-- Node kinds whose hooks manipulate the list-counter or classifier
machinery; their stack behaviour is analysed inside their containers
rather than by the generic push/pop classification. -/
def specialK : NodeKind → Bool
  | .bullet_list | .enumerated_list | .definition_list
  | .definition_list_item | .list_item | .term | .classifier => true
  | _ => false

/-- Net effect of walking the item children of a bullet or enumerated
list whose counter stack on entry is `_ :: r`: the buffer stack may only
grow, the pop minimum never dips below the entry bound, the counter
keeps `r` below a (possibly updated) top entry, and every new marker
was emitted at counter depth at least `r.length + 1`. -/
def itemsCtx (s t : TState) (r : List Int) : Prop :=
  s.states.length ≤ t.states.length ∧
  min s.minStates s.states.length ≤ t.minStates ∧
  (∃ c2, t.list_counter = c2 :: r) ∧
  ∃ new, t.markers = s.markers ++ new ∧ ∀ m ∈ new, r.length + 1 ≤ m.1

/-- State of the walk midway through a definition-list item, relative
to the state `base` on entry to its first (term) child: while
classifiers are still pending (`cnt ≠ 0`) the term buffer is still on
the stack. -/
def clCtx (base s : TState) (cnt : Int) : Prop :=
  base.states.length + (if cnt = 0 then 0 else 1) ≤ s.states.length ∧
  min base.minStates base.states.length ≤ s.minStates ∧
  s.list_counter = base.list_counter ∧
  ∃ new, s.markers = base.markers ++ new ∧ ∀ m ∈ new, base.list_counter.length < m.1

/-- The all-narrow character-width table used in the concrete witnesses. -/
def noWide : Char → Bool := fun _ => false

/-- Shorthand: a node of kind `k` with no attributes. -/
def ent (k : NodeKind) (cs : List Node) : Node := .mk k noAttrs cs

/-- The table scenario of claim C2: a 2-column table, header `A`/`B`,
one body row `1`/`2`, declared column widths 3, no `align` attribute
(docutils default, read as left-aligned). -/
def c2Tree : Node :=
  .mk .document noAttrs
    [ent .table
      [ent .tgroup
        [.mk .colspec { noAttrs with colwidth := some 3 } [],
         .mk .colspec { noAttrs with colwidth := some 3 } [],
         ent .thead
           [ent .row
             [ent .entry [ent .paragraph [textNode "A"]],
              ent .entry [ent .paragraph [textNode "B"]]]],
         ent .tbody
           [ent .row
             [ent .entry [ent .paragraph [textNode "1"]],
              ent .entry [ent .paragraph [textNode "2"]]]]]]]

/-- The full output of translating `c2Tree`. -/
def c2Out : List Char := chars "| A | B |\n| :-- | :-- |\n| 1 | 2 |\n\n"

/-- A cell-buffer state for claim C4: the cell holds two raw runs `x`
and `y`. -/
def c4State : TState :=
  { initState with
      states := [[.raw (chars "x"), .raw (chars "y")], []]
      stateindent := [0, 0] }

/-- The dedup scenario of claim C6: five instances of the same
unregistered node kind. -/
def c6Tree : Node :=
  .mk .document noAttrs (List.replicate 5 (ent (.other "mystery") [textNode "x"]))

/-- An enumerated list with the given `start` attribute and two items. -/
def c8List (st : Int) : Node :=
  .mk .enumerated_list { noAttrs with start := some st }
    [ent .list_item [ent .paragraph [textNode "a"]],
     ent .list_item [ent .paragraph [textNode "b"]]]

/-- A small well-formed document used as the concrete witness for the
stack invariant. -/
def c9Tree : Node :=
  .mk .document noAttrs
    [ent .section'
      [ent .title [textNode "Intro"],
       ent .paragraph [textNode "hello world"],
       ent .bullet_list
         [ent .list_item [ent .paragraph [textNode "a"]],
          ent .list_item [ent .paragraph [textNode "b"]]]]]

/-! ## Theorems -/

section WrapperProofs

variable (wide : Char → Bool)

theorem runSplitGo_nonempty (key : Char → Bool) :
    ∀ (l : List Char) (v : Bool) (acc : List Char), acc ≠ [] →
      ∀ p ∈ runSplitGo key v acc l, p ≠ [] := by
  intro l
  induction l with
  | nil =>
    intro v acc hacc p hp
    simp only [runSplitGo, List.mem_singleton] at hp
    subst hp
    simpa using hacc
  | cons c r ih =>
    intro v acc hacc p hp
    by_cases h : key c = v
    · simp only [runSplitGo, h, if_pos rfl] at hp
      exact ih v (c :: acc) (by simp) p (by simpa [h] using hp)
    · simp only [runSplitGo, if_neg h, List.mem_cons] at hp
      rcases hp with rfl | hp
      · simpa using hacc
      · exact ih (key c) [c] (by simp) p hp

theorem runSplitGo_mem (key : Char → Bool) :
    ∀ (l : List Char) (v : Bool) (acc : List Char),
      ∀ p ∈ runSplitGo key v acc l, ∀ x ∈ p, x ∈ acc ∨ x ∈ l := by
  intro l
  induction l with
  | nil =>
    intro v acc p hp x hx
    simp only [runSplitGo, List.mem_singleton] at hp
    subst hp
    exact Or.inl (by simpa using hx)
  | cons c r ih =>
    intro v acc p hp x hx
    by_cases h : key c = v
    · simp only [runSplitGo, h, if_pos rfl] at hp
      rcases ih v (c :: acc) p (by simpa [h] using hp) x hx with hm | hm
      · rcases List.mem_cons.mp hm with rfl | hm
        · exact Or.inr (List.mem_cons_self _ _)
        · exact Or.inl hm
      · exact Or.inr (List.mem_cons_of_mem _ hm)
    · simp only [runSplitGo, if_neg h, List.mem_cons] at hp
      rcases hp with rfl | hp
      · exact Or.inl (by simpa using hx)
      · rcases ih (key c) [c] p hp x hx with hm | hm
        · rcases List.mem_singleton.mp hm with rfl
          exact Or.inr (List.mem_cons_self _ _)
        · exact Or.inr (List.mem_cons_of_mem _ hm)

theorem runSplitGo_uniform (key : Char → Bool) :
    ∀ (l : List Char) (v : Bool) (acc : List Char), (∀ x ∈ acc, key x = v) →
      ∀ p ∈ runSplitGo key v acc l, ∃ u, ∀ x ∈ p, key x = u := by
  intro l
  induction l with
  | nil =>
    intro v acc hacc p hp
    simp only [runSplitGo, List.mem_singleton] at hp
    subst hp
    exact ⟨v, fun x hx => hacc x (by simpa using hx)⟩
  | cons c r ih =>
    intro v acc hacc p hp
    by_cases h : key c = v
    · simp only [runSplitGo, h, if_pos rfl] at hp
      refine ih v (c :: acc) ?_ p (by simpa [h] using hp)
      intro x hx
      rcases List.mem_cons.mp hx with rfl | hx
      · exact h
      · exact hacc x hx
    · simp only [runSplitGo, if_neg h, List.mem_cons] at hp
      rcases hp with rfl | hp
      · exact ⟨v, fun x hx => hacc x (by simpa using hx)⟩
      · exact ih (key c) [c] (by simp) p hp

theorem runSplit_nonempty (key : Char → Bool) (l : List Char) :
    ∀ p ∈ runSplit key l, p ≠ [] := by
  cases l with
  | nil => simp [runSplit]
  | cons c r => exact runSplitGo_nonempty key r (key c) [c] (by simp)

theorem runSplit_mem (key : Char → Bool) (l : List Char) :
    ∀ p ∈ runSplit key l, ∀ x ∈ p, x ∈ l := by
  cases l with
  | nil => simp [runSplit]
  | cons c r =>
    intro p hp x hx
    rcases runSplitGo_mem key r (key c) [c] p hp x hx with hm | hm
    · rcases List.mem_singleton.mp hm with rfl
      exact List.mem_cons_self _ _
    · exact List.mem_cons_of_mem _ hm

theorem runSplit_uniform (key : Char → Bool) (l : List Char) :
    ∀ p ∈ runSplit key l, ∃ u, ∀ x ∈ p, key x = u := by
  cases l with
  | nil => simp [runSplit]
  | cons c r =>
    intro p hp
    exact runSplitGo_uniform key r (key c) [c] (by simp) p hp

theorem cw_pos (c : Char) : 1 ≤ cw wide c := by
  unfold cw
  split <;> omega

theorem colw_nil : colw wide [] = 0 := rfl

theorem colw_cons (c : Char) (s : List Char) :
    colw wide (c :: s) = cw wide c + colw wide s := by
  simp [colw]

theorem colw_append (a b : List Char) :
    colw wide (a ++ b) = colw wide a + colw wide b := by
  simp [colw]

theorem colw_nonneg (s : List Char) : 0 ≤ colw wide s := by
  induction s with
  | nil => simp [colw]
  | cons c r ih =>
    rw [colw_cons]
    have := cw_pos wide c
    omega

theorem colw_narrow (s : List Char) (h : ∀ x ∈ s, wide x = false) :
    colw wide s = s.length := by
  induction s with
  | nil => simp [colw]
  | cons c r ih =>
    rw [colw_cons]
    have hc : wide c = false := h c (List.mem_cons_self _ _)
    have hr := ih (fun x hx => h x (List.mem_cons_of_mem _ hx))
    simp [cw, hc, hr]
    ring

theorem length_le_colw (s : List Char) : (s.length : Int) ≤ colw wide s := by
  induction s with
  | nil => simp [colw]
  | cons c r ih =>
    rw [colw_cons]
    have := cw_pos wide c
    simp only [List.length_cons]
    push_cast
    omega

theorem colw_pos_of_ne_nil (s : List Char) (h : s ≠ []) : 1 ≤ colw wide s := by
  cases s with
  | nil => simp at h
  | cons c r =>
    rw [colw_cons]
    have := cw_pos wide c
    have := colw_nonneg wide r
    omega

theorem maxFitLen_narrow (s : List Char) (sl : Int) (hsl : 0 ≤ sl)
    (h : ∀ x ∈ s, wide x = false) :
    maxFitLen wide s sl = min s.length sl.toNat := by
  induction s generalizing sl with
  | nil => simp [maxFitLen]
  | cons c r ih =>
    have hc : wide c = false := h c (List.mem_cons_self _ _)
    have hcw : cw wide c = 1 := by simp [cw, hc]
    by_cases h1 : (1 : Int) ≤ sl
    · have : maxFitLen wide (c :: r) sl = 1 + maxFitLen wide r (sl - 1) := by
        simp [maxFitLen, hcw, h1]
      rw [this, ih (sl - 1) (by omega) (fun x hx => h x (List.mem_cons_of_mem _ hx))]
      simp only [List.length_cons]
      omega
    · have hsl0 : sl = 0 := by omega
      subst hsl0
      simp [maxFitLen, hcw]

theorem maxFitLen_le_length (s : List Char) (sl : Int) :
    maxFitLen wide s sl ≤ s.length := by
  induction s generalizing sl with
  | nil => simp [maxFitLen]
  | cons c r ih =>
    by_cases h : cw wide c ≤ sl <;> simp [maxFitLen, h]
    · have := ih (sl - cw wide c)
      omega

theorem firstExceedAux_spec (sl : Int) :
    ∀ (w : List Char) (tot : Int) (i : Nat), tot ≤ sl →
      firstExceedAux wide sl w tot i =
        if colw wide w + tot ≤ sl then none
        else some (i + maxFitLen wide w (sl - tot)) := by
  intro w
  induction w with
  | nil =>
    intro tot i htot
    simp [firstExceedAux, colw, htot]
  | cons c r ih =>
    intro tot i htot
    by_cases hgt : tot + cw wide c > sl
    · have hcol : ¬ (colw wide (c :: r) + tot ≤ sl) := by
        rw [colw_cons]
        have := colw_nonneg wide r
        omega
      have hfit : ¬ (cw wide c ≤ sl - tot) := by omega
      simp [firstExceedAux, hgt, hcol, maxFitLen, hfit]
    · have hle : tot + cw wide c ≤ sl := by omega
      have hfit : cw wide c ≤ sl - tot := by omega
      have heq := ih (tot + cw wide c) (i + 1) hle
      have hcond : (colw wide (c :: r) + tot ≤ sl) ↔ (colw wide r + (tot + cw wide c) ≤ sl) := by
        rw [colw_cons]
        constructor <;> intro <;> omega
      by_cases hc2 : colw wide r + (tot + cw wide c) ≤ sl
      · simp [firstExceedAux, hgt, heq, hc2, hcond.mpr hc2]
      · have : ¬ colw wide (c :: r) + tot ≤ sl := fun hh => hc2 (hcond.mp hh)
        have harith : sl - tot - cw wide c = sl - (tot + cw wide c) := by ring
        simp [firstExceedAux, hgt, heq, hc2, this, maxFitLen, hfit, harith]
        omega

theorem breakWord_eq (word : List Char) (sl : Int) (hsl : 0 ≤ sl) :
    breakWord wide word sl =
      if colw wide word ≤ sl then (word, [])
      else if maxFitLen wide word sl = 0 then
        (word.dropLast, word.drop (word.length - 1))
      else
        (word.take (maxFitLen wide word sl - 1),
         word.drop (maxFitLen wide word sl - 1)) := by
  unfold breakWord
  rw [firstExceedAux_spec wide sl word 0 0 hsl]
  by_cases h : colw wide word ≤ sl
  · simp [h]
  · simp only [add_zero, sub_zero, Nat.zero_add, zero_add]
    rw [if_neg h]
    rcases hm : maxFitLen wide word sl with _ | k
    · simp [h]
    · simp [h]

/-- Claim C3's description of the split point, instantiated at the
all-narrow word `"ab"` and `space_left = 1`: the head should be the
longest fitting prefix `"a"`, but `_break_word` returns `("", "ab")`. -/
theorem c3_counterexample :
    ¬ ((breakWord noWide (chars "ab") 1).1 ++ (breakWord noWide (chars "ab") 1).2
         = chars "ab" ∧
       (breakWord noWide (chars "ab") 1).1
         = (chars "ab").take (maxFitLen noWide (chars "ab") 1)) := by
  decide

/-- Claim C3 (amended): for every nonempty word and `space_left ≥ 1`,
`_break_word` returns `(head, tail)` with `head ++ tail = word`, but the
split point is one character EARLIER than the last boundary whose
cumulative display width fits: when the word does not entirely fit,
`head` is the longest fitting prefix with its final character removed,
and when even the first character exceeds `space_left` (fit length 0),
Python's negative indexing makes `head = word[:-1]` and
`tail = word[-1:]`. -/
theorem c3_break_word_amended (word : List Char) (sl : Int)
    (hw : word ≠ []) (hsl : 1 ≤ sl) :
    (breakWord wide word sl).1 ++ (breakWord wide word sl).2 = word ∧
    breakWord wide word sl =
      (if colw wide word ≤ sl then (word, [])
       else if maxFitLen wide word sl = 0 then
         (word.dropLast, word.drop (word.length - 1))
       else
         (word.take (maxFitLen wide word sl - 1),
          word.drop (maxFitLen wide word sl - 1))) := by
  have heq := breakWord_eq wide word sl (by omega)
  refine ⟨?_, heq⟩
  rw [heq]
  by_cases h1 : colw wide word ≤ sl
  · simp [h1]
  · by_cases h2 : maxFitLen wide word sl = 0
    · simp only [h1, if_false, h2, if_true, if_pos rfl]
      rw [List.dropLast_eq_take]
      simp [List.take_append_drop]
    · simp only [h1, if_false, h2, if_neg, if_false]
      simp [List.take_append_drop]

/-- Witness for `c3_break_word_amended` at `word = "ab"`,
`space_left = 1`. -/
theorem c3_break_word_amended_witness :
    (chars "ab" ≠ [] ∧ (1 : Int) ≤ 1) ∧
    ((breakWord noWide (chars "ab") 1).1 ++ (breakWord noWide (chars "ab") 1).2
       = chars "ab" ∧
     breakWord noWide (chars "ab") 1 =
       (if colw noWide (chars "ab") ≤ 1 then (chars "ab", [])
        else if maxFitLen noWide (chars "ab") 1 = 0 then
          ((chars "ab").dropLast, (chars "ab").drop ((chars "ab").length - 1))
        else
          ((chars "ab").take (maxFitLen noWide (chars "ab") 1 - 1),
           (chars "ab").drop (maxFitLen noWide (chars "ab") 1 - 1)))) :=
  ⟨⟨by decide, by decide⟩,
   c3_break_word_amended noWide (chars "ab") 1 (by decide) (by decide)⟩

theorem wrapLoop_ne_widthErr (w : Int) :
    ∀ fuel first chunks, wrapLoop wide w fuel first chunks ≠ WrapRes.widthErr := by
  intro fuel
  induction fuel with
  | zero => intro first chunks; simp [wrapLoop]
  | succ n ih =>
    intro first chunks
    match chunks with
    | [] => simp [wrapLoop]
    | c0 :: r0 =>
      simp only [wrapLoop]
      rcases hst : (wrapStep wide w first c0 r0).1 with _ | line
      · simpa only [hst] using ih first (wrapStep wide w first c0 r0).2
      · simp only [hst]
        rcases h2 : wrapLoop wide w n false (wrapStep wide w first c0 r0).2 with ls | _ | _
        · simp
        · exact absurd h2 (ih _ _)
        · simp

/-- Claim C7: calling the wrapper with `width ≤ 0` raises the
`ValueError` (which fails the whole translation run), and this is the
only input that does: for every `width ≥ 1` and any text the wrapper
never raises it (on the inputs where the source loop does not
terminate, the fuelled model reports `fuelOut`, which is not the
error). -/
theorem c7_width_error :
    (∀ w : Int, w ≤ 0 → ∀ fuel text, wrapText wide w fuel text = .widthErr) ∧
    (∀ w : Int, 1 ≤ w → ∀ fuel text, wrapText wide w fuel text ≠ .widthErr) := by
  constructor
  · intro w hw fuel text
    simp [wrapText, wrapChunks, hw]
  · intro w hw fuel text
    have hnot : ¬ (w ≤ 0) := by omega
    simp only [wrapText, wrapChunks, hnot, if_false]
    exact wrapLoop_ne_widthErr wide w fuel true _

/-- Witness for `c7_width_error` at widths `0` and `1`. -/
theorem c7_width_error_witness :
    wrapText noWide 0 5 (chars "a") = .widthErr ∧
    wrapText noWide 1 5 (chars "a") ≠ .widthErr :=
  ⟨(c7_width_error noWide).1 0 (by decide) 5 (chars "a"),
   (c7_width_error noWide).2 1 (by decide) 5 (chars "a")⟩

theorem packChunks_spec (w : Int) :
    ∀ (chunks : List (List Char)) (curLen : Int),
      (packChunks wide w curLen chunks).1 ++ (packChunks wide w curLen chunks).2.1 = chunks ∧
      (packChunks wide w curLen chunks).2.2 =
        curLen + colw wide (packChunks wide w curLen chunks).1.flatten ∧
      ((packChunks wide w curLen chunks).2.2 ≤ w ∨ (packChunks wide w curLen chunks).1 = []) := by
  intro chunks
  induction chunks with
  | nil =>
    intro curLen
    refine ⟨rfl, ?_, Or.inr rfl⟩
    show curLen = curLen + colw wide ([] : List (List Char)).flatten
    simp [colw]
  | cons c r ih =>
    intro curLen
    by_cases h : curLen + colw wide c ≤ w
    · obtain ⟨h1, h2, h3⟩ := ih (curLen + colw wide c)
      have hred : packChunks wide w curLen (c :: r) =
          (c :: (packChunks wide w (curLen + colw wide c) r).1,
           (packChunks wide w (curLen + colw wide c) r).2.1,
           (packChunks wide w (curLen + colw wide c) r).2.2) := by
        simp [packChunks, h]
      rw [hred]
      refine ⟨by simpa using h1, ?_, ?_⟩
      · simp only [List.flatten_cons, colw_append]
        omega
      · left
        rcases h3 with h3 | h3
        · exact h3
        · rw [h2, h3]
          simp only [List.flatten_nil, colw_nil, add_zero]
          exact h
    · have hred : packChunks wide w curLen (c :: r) = ([], c :: r, curLen) := by
        simp [packChunks, h]
      rw [hred]
      refine ⟨rfl, ?_, Or.inr rfl⟩
      show curLen = curLen + colw wide ([] : List (List Char)).flatten
      simp [colw]

theorem colw_flatten_dropLast_le (l : List (List Char)) :
    colw wide l.dropLast.flatten ≤ colw wide l.flatten := by
  rcases eq_or_ne l [] with rfl | hne
  · simp
  · conv_rhs => rw [← List.dropLast_append_getLast hne]
    rw [List.flatten_append, colw_append]
    have h1 := colw_nonneg wide ([l.getLast hne] : List (List Char)).flatten
    omega

theorem breakWord_of_good (c : List Char) (sl : Int)
    (hg : goodChunk wide c) (h1 : 1 ≤ sl) (h2 : sl < colw wide c) :
    colw wide (breakWord wide c sl).1 ≤ sl - 1 ∧
    (breakWord wide c sl).1 ++ (breakWord wide c sl).2 = c ∧
    goodChunk wide (breakWord wide c sl).2 := by
  obtain ⟨hne, hform⟩ := hg
  have happ := (c3_break_word_amended wide c sl hne h1).1
  have heq := breakWord_eq wide c sl (by omega)
  have hnotfit : ¬ colw wide c ≤ sl := by omega
  rcases hform with hnarrow | ⟨ch, rfl, hwch⟩
  · -- all-narrow chunk
    have hcl : colw wide c = c.length := colw_narrow wide c hnarrow
    have hmf : maxFitLen wide c sl = min c.length sl.toNat :=
      maxFitLen_narrow wide c sl (by omega) hnarrow
    have hlen2 : (sl.toNat : Int) = sl := by omega
    have hlt : sl.toNat < c.length := by omega
    have hmin : maxFitLen wide c sl = sl.toNat := by rw [hmf]; omega
    have hm0 : maxFitLen wide c sl ≠ 0 := by omega
    rw [heq, if_neg hnotfit, if_neg hm0] at happ ⊢
    refine ⟨?_, happ, ?_⟩
    · have hxtake : ∀ x ∈ c.take (maxFitLen wide c sl - 1), wide x = false :=
        fun x hx => hnarrow x (List.mem_of_mem_take hx)
      rw [colw_narrow wide _ hxtake, List.length_take, hmin]
      omega
    · refine ⟨?_, Or.inl ?_⟩
      · intro hdrop
        dsimp only at hdrop
        have hd := congrArg List.length hdrop
        rw [List.length_drop] at hd
        simp only [List.length_nil] at hd
        omega
      · exact fun x hx => hnarrow x (List.mem_of_mem_drop hx)
  · -- single wide character
    have hcw2 : colw wide [ch] = 2 := by simp [colw, cw, hwch]
    have hsl1 : sl = 1 := by omega
    subst hsl1
    have hmf : maxFitLen wide [ch] 1 = 0 := by
      simp [maxFitLen, cw, hwch]
    rw [heq, if_neg hnotfit, if_pos hmf] at happ ⊢
    refine ⟨?_, happ, ?_⟩
    · simp [colw]
    · refine ⟨?_, Or.inr ⟨ch, ?_, hwch⟩⟩ <;> simp

theorem trimTrail_le (l : List (List Char)) :
    colw wide (trimTrail l).flatten ≤ colw wide l.flatten := by
  unfold trimTrail
  match l.getLast? with
  | some lc =>
    by_cases h : pyStrip lc = []
    · simp only [h, if_pos rfl]
      exact colw_flatten_dropLast_le wide l
    · simp [h]
  | none => simp

theorem longWordStep_spec (w : Int) (hw : 1 ≤ w)
    (curLen : Int) (cur rest : List (List Char))
    (hcl : curLen = colw wide cur.flatten) (hcw : curLen ≤ w)
    (hrest : ∀ c ∈ rest, goodChunk wide c) :
    colw wide (longWordStep wide w curLen cur rest).1.flatten ≤ w ∧
    (∀ c ∈ (longWordStep wide w curLen cur rest).2, goodChunk wide c) := by
  have hnn : 0 ≤ colw wide cur.flatten := colw_nonneg wide _
  match rest with
  | [] =>
    constructor
    · show colw wide cur.flatten ≤ w
      omega
    · show ∀ c ∈ ([] : List (List Char)), goodChunk wide c
      simp
  | h :: t =>
    by_cases hlong : colw wide h > w
    · have hred : longWordStep wide w curLen cur (h :: t) =
          handleLong wide w curLen cur h t := by
        simp [longWordStep, hlong]
      rw [hred]
      have hgh : goodChunk wide h := hrest h (List.mem_cons_self _ _)
      have hA := max_choice (w - curLen) 1
      have hge1 : 1 ≤ max (w - curLen) 1 := le_max_right _ _
      have hslw : max (w - curLen) 1 ≤ w := by
        rcases hA with hm | hm <;> rw [hm] <;> omega
      have hsllt : max (w - curLen) 1 < colw wide h := by
        rcases hA with hm | hm <;> rw [hm] <;> omega
      obtain ⟨hbw1, _, hbw3⟩ := breakWord_of_good wide h _ hgh hge1 hsllt
      unfold handleLong
      constructor
      · simp only [List.flatten_append, colw_append, List.flatten_cons,
          List.flatten_nil, List.append_nil]
        rcases hA with hm | hm
        · rw [hm] at hbw1 ⊢
          omega
        · rw [hm] at hbw1 ⊢
          have h0 := colw_nonneg wide (breakWord wide h 1).1
          omega
      · intro c hc
        rcases List.mem_cons.mp hc with rfl | hc
        · exact hbw3
        · exact hrest c (List.mem_cons_of_mem _ hc)
    · have hred : longWordStep wide w curLen cur (h :: t) = (cur, h :: t) := by
        simp [longWordStep, hlong]
      rw [hred]
      constructor
      · show colw wide cur.flatten ≤ w
        omega
      · show ∀ c ∈ h :: t, goodChunk wide c
        exact hrest

theorem wrapStep_spec (w : Int) (hw : 1 ≤ w) (first : Bool)
    (c0 : List Char) (r0 : List (List Char))
    (hg : ∀ c ∈ c0 :: r0, goodChunk wide c) :
    (∀ line, (wrapStep wide w first c0 r0).1 = some line → colw wide line ≤ w) ∧
    (∀ c ∈ (wrapStep wide w first c0 r0).2, goodChunk wide c) := by
  have hgc : ∀ c ∈ dropLead first c0 r0, goodChunk wide c := by
    unfold dropLead
    split
    · exact fun c hc => hg c (List.mem_cons_of_mem _ hc)
    · exact hg
  obtain ⟨hsplit, hlen, hbound⟩ := packChunks_spec wide w (dropLead first c0 r0) 0
  have hcur : ∀ c ∈ (packChunks wide w 0 (dropLead first c0 r0)).1, goodChunk wide c :=
    fun c hc => hgc c (hsplit ▸ List.mem_append_left _ hc)
  have hrest : ∀ c ∈ (packChunks wide w 0 (dropLead first c0 r0)).2.1, goodChunk wide c :=
    fun c hc => hgc c (hsplit ▸ List.mem_append_right _ hc)
  have hlen2 : (packChunks wide w 0 (dropLead first c0 r0)).2.2 =
      colw wide (packChunks wide w 0 (dropLead first c0 r0)).1.flatten := by
    rw [hlen]
    ring
  have hcw : (packChunks wide w 0 (dropLead first c0 r0)).2.2 ≤ w := by
    rcases hbound with hb | hb
    · exact hb
    · rw [hlen2, hb]
      have := colw_nonneg wide (([] : List (List Char)).flatten)
      simp only [List.flatten_nil, colw_nil]
      omega
  obtain ⟨hq1, hq2⟩ := longWordStep_spec wide w hw _ _ _ hlen2 hcw hrest
  constructor
  · intro line hline
    unfold wrapStep at hline
    simp only at hline
    split at hline
    · exact absurd hline (by simp)
    · injection hline with hline
      rw [← hline]
      exact le_trans (trimTrail_le wide _) hq1
  · intro c hc
    unfold wrapStep at hc
    simp only at hc
    exact hq2 c hc

theorem wrapLoop_bound (w : Int) (hw : 1 ≤ w) :
    ∀ fuel first chunks, (∀ c ∈ chunks, goodChunk wide c) →
      ∀ lines, wrapLoop wide w fuel first chunks = .ok lines →
        ∀ l ∈ lines, colw wide l ≤ w := by
  intro fuel
  induction fuel with
  | zero =>
    intro first chunks hg lines h
    simp [wrapLoop] at h
  | succ n ih =>
    intro first chunks hg lines h
    match chunks with
    | [] =>
      simp only [wrapLoop, WrapRes.ok.injEq] at h
      subst h
      simp
    | c0 :: r0 =>
      obtain ⟨hline, hrest⟩ := wrapStep_spec wide w hw first c0 r0 hg
      simp only [wrapLoop] at h
      rcases hst : (wrapStep wide w first c0 r0).1 with _ | line
      · rw [hst] at h
        exact ih first _ hrest lines h
      · rw [hst] at h
        rcases h2 : wrapLoop wide w n false (wrapStep wide w first c0 r0).2
          with ls | _ | _ <;> rw [h2] at h
        · simp only [WrapRes.ok.injEq] at h
          subst h
          intro l hl
          rcases List.mem_cons.mp hl with rfl | hl2
          · exact hline l hst
          · exact ih false _ hrest ls h2 l hl2
        · exact absurd h (by simp)
        · exact absurd h (by simp)

theorem mySplit_good (text : List Char) :
    ∀ c ∈ mySplit wide text, goodChunk wide c := by
  intro c hc
  unfold mySplit at hc
  simp only [List.mem_flatMap] at hc
  obtain ⟨chunk, hchunk, g, hg, hc⟩ := hc
  obtain ⟨u, hu⟩ := runSplit_uniform wide chunk g hg
  have hgne := runSplit_nonempty wide chunk g hg
  match g with
  | [] => exact absurd rfl hgne
  | gc :: gr =>
    have hgcu : wide gc = u := hu gc (List.mem_cons_self _ _)
    dsimp only at hc
    by_cases hwgc : wide gc = true
    · rw [if_pos hwgc] at hc
      simp only [List.mem_map] at hc
      obtain ⟨ch, hch, rfl⟩ := hc
      refine ⟨by simp, Or.inr ⟨ch, rfl, ?_⟩⟩
      rw [hu ch hch, ← hgcu, hwgc]
    · rw [if_neg hwgc] at hc
      refine ⟨runSplit_nonempty pySpace _ c hc, Or.inl ?_⟩
      intro x hx
      have hxin : x ∈ gc :: gr := runSplit_mem pySpace _ c hc x hx
      rw [hu x hxin, ← hgcu]
      simpa using hwgc

/-- Claim C1: for every input text and width `w ≥ 1` (default wrap
options), every line a terminating run of `my_wrap` returns has a sum
of per-character display widths at most `w`, except a line consisting
of a single atomic chunk whose own display width exceeds `w`.  (In
fact the stronger left disjunct always holds: with the default
`break_long_words = True` the force-emit branch of
`_handle_long_word` is unreachable.) -/
theorem c1_wrap_width_bound (w : Int) (fuel : Nat) (text : List Char)
    (lines : List (List Char)) (hw : 1 ≤ w)
    (hok : wrapText wide w fuel text = .ok lines) :
    ∀ l ∈ lines, colw wide l ≤ w ∨
      (∃ c ∈ mySplit wide (munge text), l = c ∧ w < colw wide c) := by
  intro l hl
  left
  have hnot : ¬ (w ≤ 0) := by omega
  unfold wrapText wrapChunks at hok
  rw [if_neg hnot] at hok
  exact wrapLoop_bound wide w hw fuel true _ (mySplit_good wide (munge text)) lines hok l hl

/-- Witness for `c1_wrap_width_bound` at `text = "aa bb"`, `w = 3`. -/
theorem c1_wrap_width_bound_witness :
    ((1 : Int) ≤ 3 ∧
      wrapText noWide 3 20 (chars "aa bb") = .ok [chars "aa", chars "bb"]) ∧
    (∀ l ∈ [chars "aa", chars "bb"], colw noWide l ≤ 3 ∨
      (∃ c ∈ mySplit noWide (munge (chars "aa bb")), l = c ∧ 3 < colw noWide c)) :=
  ⟨⟨by decide, by decide⟩,
   c1_wrap_width_bound noWide 3 20 (chars "aa bb") [chars "aa", chars "bb"]
     (by decide) (by decide)⟩

end WrapperProofs

section TranslatorProofs

/-! ### Claim C2 — the table scenario -/

/-- Claim C2, refuted: the translator's output for the claimed scenario
contains the separator row `"| :-- | :-- |"` (left alignment emits `:`
followed by `width - 1` dashes), and the claimed separator row
`"| --- | --- |"` occurs nowhere in the output. -/
theorem c2_counterexample :
    translate noWide c2Tree = .ok c2Out ∧
    (chars "| :-- | :-- |") <:+: c2Out ∧
    ¬ (chars "| --- | --- |") <:+: c2Out := by
  decide

/-- Claim C2 (amended): the scenario's output consists of the header
row, the separator row `"| :-- | :-- |"`, the body row, and two
trailing blank lines, in that order. -/
theorem c2_table_amended :
    translate noWide c2Tree = .ok c2Out ∧
    c2Out.splitOn '\n' =
      [chars "| A | B |", chars "| :-- | :-- |", chars "| 1 | 2 |", [], []] := by
  decide

/-! ### Claim C4 — `depart_entry` -/

theorem removeNl_append (a b : List Char) :
    removeNl (a ++ b) = removeNl a ++ removeNl b := by
  simp [removeNl]

theorem removeNl_pyJoin_nl (ps : List (List Char)) :
    removeNl (pyJoin ['\n'] ps) = (ps.map removeNl).flatten := by
  induction ps with
  | nil => rfl
  | cons p ps ih =>
    match ps with
    | [] => simp [pyJoin, removeNl]
    | q :: t =>
      show removeNl (p ++ ['\n'] ++ pyJoin ['\n'] (q :: t)) = _
      rw [removeNl_append, removeNl_append, ih]
      simp [removeNl]

/-- Claim C4, refuted at a cell buffer holding the two text runs `"x"`
and `"y"`: the code appends `"xy"` (pieces are joined with a NEWLINE
which is then deleted, leaving no separator), while the claim's
join-with-a-single-space reading yields `"x y"`. -/
theorem c4_counterexample :
    (depart_entry c4State).current_row = [chars "xy"] ∧
    c4ClaimText [.raw (chars "x"), .raw (chars "y")] = chars "x y" ∧
    (chars "xy" : List Char) ≠ chars "x y" := by
  decide

/-- Claim C4 (amended): `depart_entry` pops the cell buffer and appends
to the current row the concatenation — with NO separator — of the
newline-stripped pieces of the buffer (each nonempty entry contributes
its stripped text; a pre-formatted block contributes only its first
line), because the pieces are joined with `self.nl` and every newline
is then removed. -/
theorem c4_depart_entry_amended (s : TState) (buf : List Entry)
    (rest : List (List Entry)) (h : s.states = buf :: rest) :
    (depart_entry s).current_row = s.current_row ++ [cellText buf] ∧
    (depart_entry s).states = rest ∧
    (depart_entry s).stateindent = s.stateindent.tail ∧
    cellText buf = ((cellPieces buf).map removeNl).flatten := by
  have hpop : popStateBuf s =
      (buf, { s with states := rest, minStates := min s.minStates rest.length }) := by
    simp [popStateBuf, h]
  unfold depart_entry
  rw [hpop]
  exact ⟨rfl, rfl, rfl, removeNl_pyJoin_nl (cellPieces buf)⟩

/-- Witness for `c4_depart_entry_amended` at the concrete `c4State`. -/
theorem c4_depart_entry_amended_witness :
    (depart_entry c4State).current_row
        = c4State.current_row ++ [cellText [.raw (chars "x"), .raw (chars "y")]] ∧
    (depart_entry c4State).states = [[]] ∧
    (depart_entry c4State).stateindent = c4State.stateindent.tail ∧
    cellText [.raw (chars "x"), .raw (chars "y")]
        = ((cellPieces [.raw (chars "x"), .raw (chars "y")]).map removeNl).flatten :=
  c4_depart_entry_amended c4State [.raw (chars "x"), .raw (chars "y")] [[]] rfl

/-! ### Claim C10 — the flag-message fence -/

theorem leads2_replTriple :
    ∀ r : List Char, leads2 r = false → leads2 (replTriple r) = false := by
  intro r h
  match r with
  | [] => rfl
  | [x] => rfl
  | [x, y] => exact h
  | x :: y :: z :: t =>
    have hxy : (x == ':' && y == ':') = false := h
    by_cases htrip : x = ':' ∧ y = ':' ∧ z = ':'
    · rw [htrip.1, htrip.2.1] at hxy
      simp at hxy
    · have hred : replTriple (x :: y :: z :: t) = x :: replTriple (y :: z :: t) := by
        simp [replTriple, htrip]
      rw [hred]
      by_cases hx : x = ':'
      · subst hx
        have hy : (y == ':') = false := by simpa using hxy
        have hy' : y ≠ ':' := by simpa using hy
        match t with
        | [] =>
          show leads2 [':', y, z] = false
          simp [leads2, hy]
        | w :: t2 =>
          have hyt : replTriple (y :: z :: w :: t2) = y :: replTriple (z :: w :: t2) := by
            rw [replTriple, if_neg (fun hc => hy' hc.1)]
          rw [hyt]
          simp [leads2, hy]
      · have hx' : (x == ':') = false := by simpa using hx
        match hX : replTriple (y :: z :: t) with
        | [] => rfl
        | x2 :: X2 => simp [leads2, hx']

theorem hasTriple_replTriple_aux :
    ∀ (n : Nat) (s : List Char), s.length ≤ n → hasTriple (replTriple s) = false := by
  intro n
  induction n with
  | zero =>
    intro s hs
    match s with
    | [] => rfl
    | c :: r => simp at hs
  | succ n ih =>
    intro s hs
    match s with
    | [] => rfl
    | [x] => rfl
    | [x, y] => rfl
    | x :: y :: z :: t =>
      by_cases htrip : x = ':' ∧ y = ':' ∧ z = ':'
      · have hred : replTriple (x :: y :: z :: t) = replTriple t := by
          simp [replTriple, htrip]
        rw [hred]
        refine ih t ?_
        simp only [List.length_cons] at hs
        omega
      · have hred : replTriple (x :: y :: z :: t) = x :: replTriple (y :: z :: t) := by
          simp [replTriple, htrip]
        rw [hred]
        have hX := ih (y :: z :: t) (by simp only [List.length_cons] at hs ⊢; omega)
        match hXs : replTriple (y :: z :: t) with
        | [] => rfl
        | [x2] => rfl
        | x2 :: x3 :: X2 =>
          rw [hXs] at hX
          by_cases hx : x = ':'
          · subst hx
            have hy : ¬ (y = ':' ∧ z = ':') := fun hc => htrip ⟨rfl, hc.1, hc.2⟩
            have hlead : leads2 (y :: z :: t) = false := by
              show (y == ':' && z == ':') = false
              by_cases hyy : y = ':' <;> by_cases hzz : z = ':' <;>
                simp [hyy, hzz] <;> exact hy ⟨hyy, hzz⟩
            have hl2 := leads2_replTriple (y :: z :: t) hlead
            rw [hXs] at hl2
            have hl2' : (x2 == ':' && x3 == ':') = false := hl2
            show hasTriple (':' :: x2 :: x3 :: X2) = false
            rw [hasTriple]
            simp only [hX, Bool.or_false]
            cases hx2 : (x2 == ':') <;> cases hx3 : (x3 == ':') <;> simp_all
          · have hx' : (x == ':') = false := by simpa using hx
            show hasTriple (x :: x2 :: x3 :: X2) = false
            rw [hasTriple]
            simp [hx', hX]

theorem hasTriple_replTriple (s : List Char) : hasTriple (replTriple s) = false :=
  hasTriple_replTriple_aux s.length s le_rfl

theorem hasTriple_append_nl :
    ∀ (n : Nat) (l : List Char), l.length ≤ n → hasTriple l = false →
      hasTriple (l ++ ['\n']) = false := by
  intro n
  induction n with
  | zero =>
    intro l hl _
    match l with
    | [] => rfl
    | c :: r => simp at hl
  | succ n ih =>
    intro l hl hf
    have hnc : (('\n' : Char) == ':') = false := by decide
    match l with
    | [] => rfl
    | [x] => rfl
    | [x, y] =>
      show hasTriple [x, y, '\n'] = false
      rw [hasTriple]
      simp only [hnc, Bool.and_false, Bool.false_or, Bool.or_false]
      rfl
    | x :: y :: z :: t =>
      rw [hasTriple] at hf
      simp only [Bool.or_eq_false_iff] at hf
      show hasTriple (x :: y :: z :: (t ++ ['\n'])) = false
      rw [hasTriple]
      simp only [Bool.or_eq_false_iff]
      refine ⟨hf.1, ?_⟩
      exact ih (y :: z :: t) (by simp only [List.length_cons] at hl ⊢; omega) hf.2

/-- Claim C10: in `visit_flag` the message line emitted between the
opening fence and the closing fence is the node's `message` attribute
with every occurrence of `":::"` removed, and the resulting line never
contains `":::"` — so the message body cannot close the callout fence
prematurely. -/
theorem c10_flag_no_triple (n : Node) (ft msg : List Char) (s : TState)
    (h1 : n.attrs.flag_type = some ft) (h2 : n.attrs.message = some msg) :
    visit_flag n s =
      { s with
          states := [.raw (chars ":::" ++
              (if ft = chars "experimental" then chars "danger"
               else if ft = chars "deprecated" then chars "warning"
               else chars "info") ++ ['['] ++ ft ++ [']'] ++ ['\n']),
            .raw (replTriple msg ++ ['\n'])] :: s.states,
          stateindent := STDINDENT :: s.stateindent } ∧
    hasTriple (replTriple msg ++ ['\n']) = false := by
  constructor
  · simp [visit_flag, h1, h2, newState, addText]
  · exact hasTriple_append_nl (replTriple msg).length _ le_rfl (hasTriple_replTriple msg)

/-- Witness for `c10_flag_no_triple` at a concrete `flag` node whose
message contains `":::"`. -/
theorem c10_flag_no_triple_witness :
    visit_flag (.mk .flag { noAttrs with
        flag_type := some (chars "experimental"),
        message := some (chars "a:::b") } []) initState =
      { initState with
          states := [.raw (chars ":::" ++
              (if chars "experimental" = chars "experimental" then chars "danger"
               else if chars "experimental" = chars "deprecated" then chars "warning"
               else chars "info") ++ ['['] ++ chars "experimental" ++ [']'] ++ ['\n']),
            .raw (replTriple (chars "a:::b") ++ ['\n'])] :: initState.states,
          stateindent := STDINDENT :: initState.stateindent } ∧
    hasTriple (replTriple (chars "a:::b") ++ ['\n']) = false :=
  c10_flag_no_triple _ (chars "experimental") (chars "a:::b") initState rfl rfl

/-! ### Claim C5 — reference nodes -/

theorem walkKids_text_id (wide : Char → Bool) (n : Nat) :
    ∀ (cs : List Node), (∀ c ∈ cs, ∃ a2, c = .mk .Text a2 []) →
      ∀ s, walkKids wide (some (.reference, n)) cs s = s := by
  intro cs
  induction cs with
  | nil => intro _ s; rfl
  | cons c r ih =>
    intro hcs s
    obtain ⟨a2, rfl⟩ := hcs _ (List.mem_cons_self _ _)
    have hnode : walkNode wide (some (.reference, n)) (.mk .Text a2 []) s = s := by
      simp [walkNode, visitHook, visit_Text, departHook, walkKids, Node.kind, Node.attrs]
    rw [walkKids, hnode]
    exact ih (fun c hc => hcs c (List.mem_cons_of_mem _ hc)) s

theorem addText_refuri_comm (t : List Char) (s : TState) (u : List Char) :
    { addText t { s with reference_uri := u } with reference_uri := ([] : List Char) } =
    { addText t s with reference_uri := ([] : List Char) } := by
  cases hs : s.states <;> simp [addText, hs]

theorem addText_states_cons (t : List Char) (s : TState) (b : List Entry)
    (rest : List (List Entry)) (h : s.states = b :: rest) :
    (addText t s).states = (b ++ [.raw t]) :: rest := by
  simp [addText, h]

/-- Claim C5: for a reference node (with plain-text content, the form
the link text `node.astext()` reproduces exactly), a `refuri` attribute
makes the translator append exactly `[text](refuri)` to the current
buffer; failing that, a `refid` attribute makes it append exactly
`[text](#refid)`; with neither it appends nothing at all, records
exactly one diagnostic message, skips the node's children, and the
traversal continues — so buffer output is emitted if and only if
`refuri` or `refid` is present. -/
theorem c5_reference (wide : Char → Bool) (par : Option (NodeKind × Nat))
    (a : Attrs) (cs : List Node) (s : TState)
    (b : List Entry) (rest : List (List Entry)) (hs : s.states = b :: rest)
    (hcs : ∀ c ∈ cs, ∃ a2, c = .mk .Text a2 []) :
    (∀ u, a.refuri = some u →
      walkNode wide par (.mk .reference a cs) s =
        { addText (chars "[" ++ astext (.mk .reference a cs) ++ chars "](" ++ u ++ chars ")") s
          with reference_uri := [] }) ∧
    (a.refuri = none → ∀ i, a.refid = some i →
      walkNode wide par (.mk .reference a cs) s =
        { addText (chars "[" ++ astext (.mk .reference a cs) ++ chars "](" ++
            ('#' :: i) ++ chars ")") s
          with reference_uri := [] }) ∧
    (a.refuri = none → a.refid = none → ∀ cs2 : List Node,
      walkNode wide par (.mk .reference a cs2) s =
        { s with messages := s.messages ++
            [chars "References must have \"refuri\" or \"refid\" attribute."] }) ∧
    ((walkNode wide par (.mk .reference a cs) s).states = s.states ↔
      (a.refuri = none ∧ a.refid = none)) := by
  have huri : ∀ u, a.refuri = some u →
      walkNode wide par (.mk .reference a cs) s =
        { addText (chars "[" ++ astext (.mk .reference a cs) ++ chars "](" ++ u ++ chars ")") s
          with reference_uri := [] } := by
    intro u hu
    have hvis : visitHook par (.mk .reference a cs) s =
        (addText (chars "[" ++ astext (.mk .reference a cs) ++ chars "](" ++ u ++ chars ")")
          { s with reference_uri := u }, false) := by
      simp [visitHook, visit_reference, Node.kind, Node.attrs, hu]
    rw [walkNode, hvis]
    simp only [Bool.false_eq_true, if_false]
    rw [walkKids_text_id wide cs.length cs hcs]
    show { addText _ { s with reference_uri := u } with reference_uri := ([] : List Char) } = _
    exact addText_refuri_comm _ s u
  have hrid : a.refuri = none → ∀ i, a.refid = some i →
      walkNode wide par (.mk .reference a cs) s =
        { addText (chars "[" ++ astext (.mk .reference a cs) ++ chars "](" ++
            ('#' :: i) ++ chars ")") s
          with reference_uri := [] } := by
    intro hu i hi
    have hvis : visitHook par (.mk .reference a cs) s =
        (addText (chars "[" ++ astext (.mk .reference a cs) ++ chars "](" ++
            ('#' :: i) ++ chars ")")
          { s with reference_uri := '#' :: i }, false) := by
      simp [visitHook, visit_reference, Node.kind, Node.attrs, hu, hi]
    rw [walkNode, hvis]
    simp only [Bool.false_eq_true, if_false]
    rw [walkKids_text_id wide cs.length cs hcs]
    show { addText _ { s with reference_uri := '#' :: i } with
      reference_uri := ([] : List Char) } = _
    exact addText_refuri_comm _ s ('#' :: i)
  have hnone : a.refuri = none → a.refid = none → ∀ cs2 : List Node,
      walkNode wide par (.mk .reference a cs2) s =
        { s with messages := s.messages ++
            [chars "References must have \"refuri\" or \"refid\" attribute."] } := by
    intro hu hi cs2
    have hvis : visitHook par (.mk .reference a cs2) s =
        ({ s with messages := s.messages ++
            [chars "References must have \"refuri\" or \"refid\" attribute."] }, true) := by
      simp [visitHook, visit_reference, Node.kind, Node.attrs, hu, hi]
    rw [walkNode, hvis]
    rfl
  refine ⟨huri, hrid, hnone, ?_⟩
  have hbne : ∀ t : List Char, (b ++ [Entry.raw t]) :: rest ≠ b :: rest := by
    intro t hc
    have := congrArg (fun l => (List.headD l []).length) hc
    simp at this
  rcases hru : a.refuri with _ | u
  · rcases hri : a.refid with _ | i
    · rw [hnone hru hri cs]
      simp
    · rw [hrid hru i hri]
      constructor
      · intro hcontra
        have hc2 : (addText (chars "[" ++ astext (.mk .reference a cs) ++ chars "](" ++
            ('#' :: i) ++ chars ")") s).states = s.states := hcontra
        rw [addText_states_cons _ s b rest hs, hs] at hc2
        exact absurd hc2 (hbne _)
      · intro hcontra
        exact absurd hcontra.2 (by simp [hri])
  · rw [huri u hru]
    constructor
    · intro hcontra
      have hc2 : (addText (chars "[" ++ astext (.mk .reference a cs) ++ chars "](" ++
          u ++ chars ")") s).states = s.states := hcontra
      rw [addText_states_cons _ s b rest hs, hs] at hc2
      exact absurd hc2 (hbne _)
    · intro hcontra
      exact absurd hcontra.1 (by simp [hru])

/-- Witness for `c5_reference`: a reference node with text `"click"`
and `refuri = "http://x"` appends exactly `"[click](http://x)"`. -/
theorem c5_reference_witness :
    walkNode noWide none
        (.mk .reference { noAttrs with refuri := some (chars "http://x") }
          [textNode "click"]) initState =
      { addText (chars "[" ++
          astext (.mk .reference { noAttrs with refuri := some (chars "http://x") }
            [textNode "click"]) ++ chars "](" ++ chars "http://x" ++ chars ")") initState
        with reference_uri := [] } :=
  (c5_reference noWide none { noAttrs with refuri := some (chars "http://x") }
      [textNode "click"] initState [] [] rfl
      (by
        intro c hc
        simp only [List.mem_singleton] at hc
        exact ⟨_, hc⟩)).1
    (chars "http://x") rfl

/-! ### Field-effect lemmas for the state operations -/

section FrameLemmas

variable (wide : Char → Bool)
variable (t : List Char) (s : TState)

@[simp] theorem addText_states_length : (addText t s).states.length = s.states.length := by
  cases hs : s.states <;> simp [addText, hs]

@[simp] theorem addText_minStates : (addText t s).minStates = s.minStates := by
  cases hs : s.states <;> simp [addText, hs]

@[simp] theorem addText_list_counter : (addText t s).list_counter = s.list_counter := by
  cases hs : s.states <;> simp [addText, hs]

@[simp] theorem addText_markers : (addText t s).markers = s.markers := by
  cases hs : s.states <;> simp [addText, hs]

@[simp] theorem addText_classifier_count :
    (addText t s).classifier_count = s.classifier_count := by
  cases hs : s.states <;> simp [addText, hs]

@[simp] theorem addText_loggedUnknown : (addText t s).loggedUnknown = s.loggedUnknown := by
  cases hs : s.states <;> simp [addText, hs]

@[simp] theorem addText_warned : (addText t s).warned = s.warned := by
  cases hs : s.states <;> simp [addText, hs]

@[simp] theorem newState_states_length (i : Int) :
    (newState i s).states.length = s.states.length + 1 := by
  simp [newState]

@[simp] theorem newState_minStates (i : Int) : (newState i s).minStates = s.minStates := rfl

@[simp] theorem newState_list_counter (i : Int) :
    (newState i s).list_counter = s.list_counter := rfl

@[simp] theorem newState_markers (i : Int) : (newState i s).markers = s.markers := rfl

@[simp] theorem newState_classifier_count (i : Int) :
    (newState i s).classifier_count = s.classifier_count := rfl

@[simp] theorem newState_loggedUnknown (i : Int) :
    (newState i s).loggedUnknown = s.loggedUnknown := rfl

@[simp] theorem newState_warned (i : Int) : (newState i s).warned = s.warned := rfl

end FrameLemmas

section EndStateLemmas

variable (wide : Char → Bool)
variable (wrapF : Bool) (endL : Option (List (List Char))) (first : Option (List Char))
variable (s : TState)

@[simp] theorem endState_states_length :
    (endState wide wrapF endL first s).states.length = s.states.length - 1 := by
  unfold endState popStateBuf popIndent
  cases hs : s.states with
  | nil => cases hsi : s.stateindent <;> simp [hsi]
  | cons b rest =>
    cases hsi : s.stateindent <;> cases rest <;> simp [hsi]

@[simp] theorem endState_minStates :
    (endState wide wrapF endL first s).minStates =
      min s.minStates (s.states.length - 1) := by
  unfold endState popStateBuf popIndent
  cases hs : s.states with
  | nil => cases hsi : s.stateindent <;> simp [hsi]
  | cons b rest =>
    cases hsi : s.stateindent <;> cases rest <;> simp [hsi]

@[simp] theorem endState_list_counter :
    (endState wide wrapF endL first s).list_counter = s.list_counter := by
  unfold endState popStateBuf popIndent
  cases hs : s.states with
  | nil => cases hsi : s.stateindent <;> simp [hsi]
  | cons b rest =>
    cases hsi : s.stateindent <;> cases rest <;> simp [hsi]

@[simp] theorem endState_markers :
    (endState wide wrapF endL first s).markers = s.markers := by
  unfold endState popStateBuf popIndent
  cases hs : s.states with
  | nil => cases hsi : s.stateindent <;> simp [hsi]
  | cons b rest =>
    cases hsi : s.stateindent <;> cases rest <;> simp [hsi]

@[simp] theorem endState_classifier_count :
    (endState wide wrapF endL first s).classifier_count = s.classifier_count := by
  unfold endState popStateBuf popIndent
  cases hs : s.states with
  | nil => cases hsi : s.stateindent <;> simp [hsi]
  | cons b rest =>
    cases hsi : s.stateindent <;> cases rest <;> simp [hsi]

@[simp] theorem endState_loggedUnknown :
    (endState wide wrapF endL first s).loggedUnknown = s.loggedUnknown := by
  unfold endState popStateBuf popIndent
  cases hs : s.states with
  | nil => cases hsi : s.stateindent <;> simp [hsi]
  | cons b rest =>
    cases hsi : s.stateindent <;> cases rest <;> simp [hsi]

@[simp] theorem endState_warned :
    (endState wide wrapF endL first s).warned = s.warned := by
  unfold endState popStateBuf popIndent
  cases hs : s.states with
  | nil => cases hsi : s.stateindent <;> simp [hsi]
  | cons b rest =>
    cases hsi : s.stateindent <;> cases rest <;> simp [hsi]

end EndStateLemmas

section ListItemFrameLemmas

variable (wide : Char → Bool) (c : Int) (s : TState)

@[simp] theorem depart_li_bullet_states_length :
    (depart_li_bullet wide s).states.length = s.states.length - 1 := by
  simp only [depart_li_bullet]
  split
  · simp
  · rename_i b rest hss
    have h1 := congrArg List.length hss
    simp at h1
    simp
    omega

@[simp] theorem depart_li_bullet_minStates :
    (depart_li_bullet wide s).minStates = min s.minStates (s.states.length - 1) := by
  simp only [depart_li_bullet]
  split <;> simp

@[simp] theorem depart_li_bullet_list_counter :
    (depart_li_bullet wide s).list_counter = s.list_counter := by
  simp only [depart_li_bullet]
  split <;> simp

@[simp] theorem depart_li_bullet_markers :
    (depart_li_bullet wide s).markers =
      s.markers ++ [(s.list_counter.length, chars "- ")] := by
  simp only [depart_li_bullet]
  split <;> simp

@[simp] theorem depart_li_bullet_classifier_count :
    (depart_li_bullet wide s).classifier_count = s.classifier_count := by
  simp only [depart_li_bullet]
  split <;> simp

@[simp] theorem depart_li_enum_states_length :
    (depart_li_enum wide c s).states.length = s.states.length - 1 := by
  simp only [depart_li_enum]
  simp

@[simp] theorem depart_li_enum_minStates :
    (depart_li_enum wide c s).minStates = min s.minStates (s.states.length - 1) := by
  simp only [depart_li_enum]
  simp

@[simp] theorem depart_li_enum_list_counter :
    (depart_li_enum wide c s).list_counter = s.list_counter := by
  simp only [depart_li_enum]
  simp

@[simp] theorem depart_li_enum_markers :
    (depart_li_enum wide c s).markers =
      s.markers ++ [(s.list_counter.length, intRepr c ++ chars ". ")] := by
  simp only [depart_li_enum]
  simp

@[simp] theorem depart_li_enum_classifier_count :
    (depart_li_enum wide c s).classifier_count = s.classifier_count := by
  simp only [depart_li_enum]
  simp

end ListItemFrameLemmas

section MoreFrameLemmas

variable (wide : Char → Bool) (s : TState)

@[simp] theorem depart_entry_states_length :
    (depart_entry s).states.length = s.states.length - 1 := by
  unfold depart_entry popStateBuf
  cases hs : s.states <;> simp [hs]

@[simp] theorem depart_entry_minStates :
    (depart_entry s).minStates = min s.minStates (s.states.length - 1) := by
  unfold depart_entry popStateBuf
  cases hs : s.states <;> simp [hs]

@[simp] theorem depart_entry_list_counter :
    (depart_entry s).list_counter = s.list_counter := by
  unfold depart_entry popStateBuf
  cases hs : s.states <;> simp [hs]

@[simp] theorem depart_entry_markers : (depart_entry s).markers = s.markers := by
  unfold depart_entry popStateBuf
  cases hs : s.states <;> simp [hs]

@[simp] theorem depart_entry_classifier_count :
    (depart_entry s).classifier_count = s.classifier_count := by
  unfold depart_entry popStateBuf
  cases hs : s.states <;> simp [hs]

@[simp] theorem depart_entry_loggedUnknown :
    (depart_entry s).loggedUnknown = s.loggedUnknown := by
  unfold depart_entry popStateBuf
  cases hs : s.states <;> simp [hs]

@[simp] theorem depart_entry_warned : (depart_entry s).warned = s.warned := by
  unfold depart_entry popStateBuf
  cases hs : s.states <;> simp [hs]

@[simp] theorem addRows_states_length (rows : List (List (List Char))) :
    ∀ s : TState, (addRows rows s).states.length = s.states.length := by
  induction rows with
  | nil => intro s; rfl
  | cons r t ih => intro s; simp [addRows, ih]

@[simp] theorem addRows_minStates (rows : List (List (List Char))) :
    ∀ s : TState, (addRows rows s).minStates = s.minStates := by
  induction rows with
  | nil => intro s; rfl
  | cons r t ih => intro s; simp [addRows, ih]

@[simp] theorem addRows_list_counter (rows : List (List (List Char))) :
    ∀ s : TState, (addRows rows s).list_counter = s.list_counter := by
  induction rows with
  | nil => intro s; rfl
  | cons r t ih => intro s; simp [addRows, ih]

@[simp] theorem addRows_markers (rows : List (List (List Char))) :
    ∀ s : TState, (addRows rows s).markers = s.markers := by
  induction rows with
  | nil => intro s; rfl
  | cons r t ih => intro s; simp [addRows, ih]

@[simp] theorem addRows_classifier_count (rows : List (List (List Char))) :
    ∀ s : TState, (addRows rows s).classifier_count = s.classifier_count := by
  induction rows with
  | nil => intro s; rfl
  | cons r t ih => intro s; simp [addRows, ih]

@[simp] theorem addRows_loggedUnknown (rows : List (List (List Char))) :
    ∀ s : TState, (addRows rows s).loggedUnknown = s.loggedUnknown := by
  induction rows with
  | nil => intro s; rfl
  | cons r t ih => intro s; simp [addRows, ih]

@[simp] theorem addRows_warned (rows : List (List (List Char))) :
    ∀ s : TState, (addRows rows s).warned = s.warned := by
  induction rows with
  | nil => intro s; rfl
  | cons r t ih => intro s; simp [addRows, ih]

end MoreFrameLemmas

/-! ### Claim C6 — unknown-kind handling -/

theorem loggedInv_of_eq (s t : TState) (h1 : t.loggedUnknown = s.loggedUnknown)
    (h2 : t.warned = s.warned) (h : loggedInv s) : loggedInv t := by
  unfold loggedInv at h ⊢
  rw [h1, h2]
  exact h

theorem visitHook_logged (par : Option (NodeKind × Nat)) (n : Node) (s : TState)
    (h : ∀ name, n.kind ≠ .other name) :
    (visitHook par n s).1.loggedUnknown = s.loggedUnknown ∧
    (visitHook par n s).1.warned = s.warned := by
  obtain ⟨k, a, cs⟩ := n
  cases k <;>
    first
      | (exact absurd rfl (h _))
      | (constructor <;>
          (simp only [visitHook, Node.kind, Node.attrs, visit_Text, visit_document,
              visit_reference, visit_list_item, visit_flag, listPush]
           <;> (repeat' split) <;> simp))

theorem departHook_logged (wide : Char → Bool) (par : Option (NodeKind × Nat))
    (n : Node) (s : TState) :
    (departHook wide par n s).loggedUnknown = s.loggedUnknown ∧
    (departHook wide par n s).warned = s.warned := by
  obtain ⟨k, a, cs⟩ := n
  cases k <;>
    (constructor <;>
      (simp only [departHook, Node.kind, Node.attrs, depart_document, admonitionDepart,
          depart_list_item, depart_li_bullet, depart_li_enum,
          depart_term, depart_classifier, depart_table,
          listPop]
       <;> (repeat' split) <;> simp))

theorem walk_loggedInv (wide : Char → Bool) :
    ∀ (N : Nat) (n : Node), nsize n ≤ N → ∀ par s, loggedInv s →
      loggedInv (walkNode wide par n s) := by
  intro N
  induction N with
  | zero =>
    intro n hn
    obtain ⟨k, a, cs⟩ := n
    rw [nsize] at hn
    omega
  | succ N ih =>
    intro n hn par s hinv
    obtain ⟨k, a, cs⟩ := n
    have hkids : ∀ (cs2 : List Node), nsizeKids cs2 ≤ N →
        ∀ par2 (s2 : TState), loggedInv s2 → loggedInv (walkKids wide par2 cs2 s2) := by
      intro cs2
      induction cs2 with
      | nil => intro _ _ s2 h2; exact h2
      | cons c r ihr =>
        intro hsz par2 s2 h2
        rw [walkKids]
        refine ihr ?_ par2 _ (ih c ?_ par2 s2 h2) <;>
          (rw [nsizeKids] at hsz)
        · have : 1 ≤ nsize c := by obtain ⟨k2, a2, cs3⟩ := c; rw [nsize]; omega
          omega
        · have : 0 ≤ nsizeKids r := Nat.zero_le _
          omega
    by_cases hother : ∃ name, k = .other name
    · obtain ⟨name, rfl⟩ := hother
      show loggedInv (walkNode wide par (.mk (.other name) a cs) s)
      have hred : walkNode wide par (.mk (.other name) a cs) s = unknown_visit name s := rfl
      rw [hred]
      unfold unknown_visit
      by_cases hw : name ∈ s.warned
      · simpa [hw] using hinv
      · rw [if_neg hw]
        obtain ⟨hnd, hsub⟩ := hinv
        constructor
        · have hnotin : name ∉ s.loggedUnknown := fun hmem => hw (hsub name hmem)
          simp [List.nodup_append, hnd, hnotin]
        · intro x hx
          rcases List.mem_append.mp hx with hx | hx
          · exact List.mem_append_left _ (hsub x hx)
          · exact List.mem_append_right _ hx
    · obtain ⟨hv1, hv2⟩ := visitHook_logged par (.mk k a cs) s
        (fun nm hc => hother ⟨nm, hc⟩)
      have hinv1 : loggedInv (visitHook par (.mk k a cs) s).1 :=
        loggedInv_of_eq s _ hv1 hv2 hinv
      rw [walkNode]
      split
      · exact hinv1
      · obtain ⟨hd1, hd2⟩ := departHook_logged wide par (.mk k a cs) _
        refine loggedInv_of_eq _ _ hd1 hd2 ?_
        refine hkids cs ?_ _ _ hinv1
        rw [nsize] at hn
        omega

/-- Claim C6: (1) over any whole translation run, the unknown-kind
diagnostics log never holds two entries for the same kind — at most one
diagnostic per distinct unregistered kind; (2) a node of an
unregistered kind is translated without ever visiting its children
(replacing the children by `[]` gives the identical result state); and
(3) translating the concrete document with five instances of the
unregistered kind `"mystery"` produces exactly one log entry. -/
theorem c6_unknown_dedup :
    (∀ (wide : Char → Bool) (t : Node),
        ((walkNode wide none t initState).loggedUnknown).Nodup) ∧
    (∀ (wide : Char → Bool) (par : Option (NodeKind × Nat)) (name : String)
        (a : Attrs) (cs : List Node) (s : TState),
        walkNode wide par (.mk (.other name) a cs) s =
          walkNode wide par (.mk (.other name) a []) s) ∧
    (walkNode noWide none c6Tree initState).loggedUnknown = ["mystery"] := by
  refine ⟨?_, ?_, by decide⟩
  · intro wide t
    exact (walk_loggedInv wide (nsize t) t le_rfl none initState
      ⟨List.nodup_nil, by simp [initState]⟩).1
  · intro wide par name a cs s
    rfl

/-! ### Stack-context preservation (claims C8 and C9) -/

theorem pctx_refl (s : TState) : preservesCtx s s :=
  ⟨le_rfl, min_le_left _ _, rfl, [], by simp, by simp⟩

theorem pctx_trans {s t u : TState}
    (h1 : preservesCtx s t) (h2 : preservesCtx t u) : preservesCtx s u := by
  obtain ⟨l1, m1, c1, n1, hn1, hd1⟩ := h1
  obtain ⟨l2, m2, c2, n2, hn2, hd2⟩ := h2
  refine ⟨le_trans l1 l2, ?_, by rw [c2, c1], n1 ++ n2, by rw [hn2, hn1, List.append_assoc], ?_⟩
  · have : min t.minStates t.states.length ≥ min s.minStates s.states.length := by
      omega
    omega
  · intro m hm
    rcases List.mem_append.mp hm with hm | hm
    · exact hd1 m hm
    · rw [c1] at hd2
      exact hd2 m hm

theorem pctx_of_ctxEq {s t : TState} (h : ctxEq s t) : preservesCtx s t := by
  obtain ⟨h1, h2, h3, h4⟩ := h
  exact ⟨le_of_eq h1.symm, by rw [h2]; exact min_le_left _ _, h3, [], by simp [h4], by simp⟩

theorem ctxEq_refl (s : TState) : ctxEq s s := ⟨rfl, rfl, rfl, rfl⟩

theorem pctx_congr_left {s s1 t : TState} (h : ctxEq s s1)
    (hp : preservesCtx s1 t) : preservesCtx s t := by
  obtain ⟨h1, h2, h3, h4⟩ := h
  obtain ⟨l1, m1, c1, n1, hn1, hd1⟩ := hp
  exact ⟨by omega, by omega, by rw [c1, h3], n1, by rw [hn1, h4], by rw [h3] at hd1; exact hd1⟩

theorem pctx_congr_right {s t t1 : TState} (h : ctxEq t t1)
    (hp : preservesCtx s t) : preservesCtx s t1 := by
  obtain ⟨h1, h2, h3, h4⟩ := h
  obtain ⟨l1, m1, c1, n1, hn1, hd1⟩ := hp
  exact ⟨by omega, by omega, by rw [h3, c1], n1, by rw [h4, hn1], hd1⟩

theorem pctx_push_pop {s s1 s2 s3 : TState} (hpush : pushCtx s s1)
    (hmid : preservesCtx s1 s2) (hpop : popCtx s2 s3) : preservesCtx s s3 := by
  obtain ⟨p1, p2, p3, p4⟩ := hpush
  obtain ⟨l1, m1, c1, n1, hn1, hd1⟩ := hmid
  obtain ⟨q1, q2, q3, q4⟩ := hpop
  refine ⟨by omega, by omega, by rw [q3, c1, p3], n1, by rw [q4, hn1, p4], ?_⟩
  rw [p3] at hd1
  exact hd1

set_option maxHeartbeats 4000000 in
theorem hook_shape (wide : Char → Bool) (par : Option (NodeKind × Nat))
    (n : Node) (s : TState) (hns : specialK n.kind = false) :
    ((visitHook par n s).2 = true ∧ ctxEq s (visitHook par n s).1)
    ∨ ((visitHook par n s).2 = false ∧ ctxEq s (visitHook par n s).1 ∧
        ∀ s2, ctxEq s2 (departHook wide par n s2))
    ∨ ((visitHook par n s).2 = false ∧ pushCtx s (visitHook par n s).1 ∧
        ∀ s2, popCtx s2 (departHook wide par n s2)) := by
  obtain ⟨k, a, cs⟩ := n
  cases k <;>
    try (first
      | (simp only [specialK, Node.kind] at hns; exact Bool.noConfusion hns)
      | -- skip kinds: visit raises SkipNode, context untouched
        ((refine Or.inl ⟨rfl, ?_, ?_, ?_, ?_⟩ <;>
          (simp only [visitHook, Node.kind, Node.attrs, unknown_visit]
           <;> (repeat' split) <;> simp)); done)
      | -- flat kinds: no buffer pushed, depart pushes none either
        ((refine Or.inr (Or.inl ⟨rfl, ⟨?_, ?_, ?_, ?_⟩, fun s2 => ⟨?_, ?_, ?_, ?_⟩⟩) <;>
          (simp only [visitHook, departHook, Node.kind, Node.attrs, visit_Text]
           <;> (repeat' split) <;> simp)); done)
      | -- push/pop kinds
        ((refine Or.inr (Or.inr ⟨rfl, ⟨?_, ?_, ?_, ?_⟩, fun s2 => ⟨?_, ?_, ?_, ?_⟩⟩) <;>
          (simp only [visitHook, departHook, Node.kind, Node.attrs, visit_document,
              visit_flag, depart_document, admonitionDepart, depart_table]
           <;> (repeat' split) <;> simp)); done))
  case title =>
    match par with
    | some (pk, pn) =>
      by_cases hadm : isAdmonitionK pk = true
      · refine Or.inl ⟨?_, ?_, ?_, ?_, ?_⟩ <;>
          (simp only [visitHook, Node.kind, Node.attrs, hadm] <;> simp)
      · have hadm2 : isAdmonitionK pk = false := by
          cases hiso : isAdmonitionK pk
          · rfl
          · exact absurd hiso hadm
        refine Or.inr (Or.inr ⟨?_, ⟨?_, ?_, ?_, ?_⟩, fun s2 => ⟨?_, ?_, ?_, ?_⟩⟩) <;>
          (simp only [visitHook, departHook, Node.kind, Node.attrs, hadm2] <;> simp)
    | none =>
      refine Or.inr (Or.inr ⟨?_, ⟨?_, ?_, ?_, ?_⟩, fun s2 => ⟨?_, ?_, ?_, ?_⟩⟩) <;>
        (simp only [visitHook, departHook, Node.kind, Node.attrs] <;> simp)
  case paragraph =>
    by_cases hil : inlinePara par = true
    · refine Or.inr (Or.inl ⟨?_, ⟨?_, ?_, ?_, ?_⟩, fun s2 => ⟨?_, ?_, ?_, ?_⟩⟩) <;>
        (simp only [visitHook, departHook, Node.kind, hil] <;> simp)
    · have hil2 : inlinePara par = false := by
        cases hiso : inlinePara par
        · rfl
        · exact absurd hiso hil
      refine Or.inr (Or.inr ⟨?_, ⟨?_, ?_, ?_, ?_⟩, fun s2 => ⟨?_, ?_, ?_, ?_⟩⟩) <;>
        (simp only [visitHook, departHook, Node.kind, hil2] <;> simp)
  case reference =>
    rcases hru : a.refuri with _ | u
    · rcases hri : a.refid with _ | i
      · refine Or.inl ⟨?_, ?_, ?_, ?_, ?_⟩ <;>
          (simp only [visitHook, visit_reference, Node.kind, Node.attrs, hru, hri] <;> simp)
      · refine Or.inr (Or.inl ⟨?_, ⟨?_, ?_, ?_, ?_⟩, fun s2 => ⟨?_, ?_, ?_, ?_⟩⟩) <;>
          (simp only [visitHook, departHook, visit_reference, Node.kind, Node.attrs,
            hru, hri] <;> simp)
    · refine Or.inr (Or.inl ⟨?_, ⟨?_, ?_, ?_, ?_⟩, fun s2 => ⟨?_, ?_, ?_, ?_⟩⟩) <;>
        (simp only [visitHook, departHook, visit_reference, Node.kind, Node.attrs,
          hru] <;> simp)

theorem visitHook_count (par : Option (NodeKind × Nat)) (n : Node) (s : TState)
    (h : n.kind ≠ .definition_list_item) :
    (visitHook par n s).1.classifier_count = s.classifier_count := by
  obtain ⟨k, a, cs⟩ := n
  cases k <;>
    first
      | (exact absurd rfl h)
      | (simp only [visitHook, Node.kind, Node.attrs, visit_Text, visit_document,
            visit_reference, visit_list_item, visit_flag, unknown_visit, listPush]
         <;> (repeat' split) <;> simp)

theorem departHook_count (wide : Char → Bool) (par : Option (NodeKind × Nat))
    (n : Node) (s : TState) (h1 : n.kind ≠ .term) (h2 : n.kind ≠ .classifier) :
    (departHook wide par n s).classifier_count = s.classifier_count := by
  obtain ⟨k, a, cs⟩ := n
  cases k <;>
    first
      | (exact absurd rfl h1)
      | (exact absurd rfl h2)
      | (simp only [departHook, Node.kind, Node.attrs, depart_document, admonitionDepart,
            depart_list_item, depart_li_bullet, depart_li_enum, depart_table, listPop]
         <;> (repeat' split) <;> simp)

theorem noCnt_countCl : ∀ (N : Nat) (n : Node), nsize n ≤ N → noCnt n = true →
    countCl n = 0 := by
  intro N
  induction N with
  | zero =>
    intro n hn
    obtain ⟨k, a, cs⟩ := n
    rw [nsize] at hn
    omega
  | succ N ih =>
    intro n hn hnc
    obtain ⟨k, a, cs⟩ := n
    obtain ⟨hk, hkds⟩ := (Bool.and_eq_true _ _).mp hnc
    rw [nsize] at hn
    have hcs : ∀ (cs2 : List Node), nsizeKids cs2 ≤ N → noCntKids cs2 = true →
        countClKids cs2 = 0 := by
      intro cs2
      induction cs2 with
      | nil => intro _ _; rfl
      | cons c r ihr =>
        intro hsz hnc3
        rw [noCntKids, Bool.and_eq_true] at hnc3
        rw [nsizeKids] at hsz
        have h1 : 1 ≤ nsize c := by obtain ⟨k2, a2, cs3⟩ := c; rw [nsize]; omega
        rw [countClKids, ih c (by omega) hnc3.1, ihr (by omega) hnc3.2]
    cases k <;>
      first
        | ((rw [countCl, hcs cs (by omega) hkds] <;>
            (try exact fun hcc => NodeKind.noConfusion hcc)); done)
        | (exact absurd hk (by decide))

theorem walk_count (wide : Char → Bool) :
    ∀ (N : Nat) (n : Node), nsize n ≤ N → noCnt n = true → ∀ par s,
      (walkNode wide par n s).classifier_count = s.classifier_count := by
  intro N
  induction N with
  | zero =>
    intro n hn
    obtain ⟨k, a, cs⟩ := n
    rw [nsize] at hn
    omega
  | succ N ih =>
    intro n hn hnc par s
    obtain ⟨k, a, cs⟩ := n
    obtain ⟨hk, hkds⟩ := (Bool.and_eq_true _ _).mp hnc
    have hkt : (Node.mk k a cs).kind ≠ .term := by
      intro hc
      rw [show (Node.mk k a cs).kind = k from rfl] at hc
      subst hc
      exact absurd hk (by decide)
    have hkc : (Node.mk k a cs).kind ≠ .classifier := by
      intro hc
      rw [show (Node.mk k a cs).kind = k from rfl] at hc
      subst hc
      exact absurd hk (by decide)
    have hkd : (Node.mk k a cs).kind ≠ .definition_list_item := by
      intro hc
      rw [show (Node.mk k a cs).kind = k from rfl] at hc
      subst hc
      exact absurd hk (by decide)
    have hkids : ∀ (cs2 : List Node), nsizeKids cs2 ≤ N → noCntKids cs2 = true →
        ∀ par2 (s2 : TState),
          (walkKids wide par2 cs2 s2).classifier_count = s2.classifier_count := by
      intro cs2
      induction cs2 with
      | nil => intro _ _ par2 s2; rfl
      | cons c r ihr =>
        intro hsz hnc2 par2 s2
        rw [noCntKids, Bool.and_eq_true] at hnc2
        rw [nsizeKids] at hsz
        have h1 : 1 ≤ nsize c := by obtain ⟨k2, a2, cs3⟩ := c; rw [nsize]; omega
        rw [walkKids, ihr (by omega) hnc2.2, ih c (by omega) hnc2.1]
    rw [walkNode]
    split
    · exact visitHook_count par _ s hkd
    · rw [departHook_count wide _ _ _ hkt hkc]
      rw [nsize] at hn
      rw [hkids cs (by omega) hkds, visitHook_count par _ s hkd]

theorem walkKids_count (wide : Char → Bool) (cs : List Node)
    (h : noCntKids cs = true) : ∀ par s,
      (walkKids wide par cs s).classifier_count = s.classifier_count := by
  induction cs with
  | nil => intro par s; rfl
  | cons c r ihr =>
    intro par s
    rw [noCntKids, Bool.and_eq_true] at h
    rw [walkKids, ihr h.2, walk_count wide (nsize c) c (le_refl _) h.1]

theorem nsize_le_of_mem : ∀ (cs : List Node) (c : Node), c ∈ cs →
    nsize c ≤ nsizeKids cs := by
  intro cs
  induction cs with
  | nil => intro c hc; exact absurd hc (List.not_mem_nil c)
  | cons d r ihr =>
    intro c hc
    rw [nsizeKids]
    rcases List.mem_cons.mp hc with rfl | hc
    · omega
    · have := ihr c hc
      omega

theorem noCntKids_countClKids : ∀ (cs : List Node), noCntKids cs = true →
    countClKids cs = 0 := by
  intro cs
  induction cs with
  | nil => intro _; rfl
  | cons c r ihr =>
    intro h
    rw [noCntKids, Bool.and_eq_true] at h
    rw [countClKids, ihr h.2, noCnt_countCl (nsize c) c (le_refl _) h.1]

theorem pctx_of_clCtx {base s : TState} {cnt : Int} (h : clCtx base s cnt) :
    preservesCtx base s := by
  obtain ⟨h1, h2, h3, new, h4, h5⟩ := h
  refine ⟨?_, h2, h3, new, h4, h5⟩
  split at h1 <;> omega

theorem wfN_eq_wfKids (k : NodeKind) (a : Attrs) (cs : List Node)
    (h : specialK k = false) : wfN (.mk k a cs) = wfKids cs := by
  cases k <;> first | rfl | (exact absurd h (by decide))

theorem wfDLIcls_cons_ne (k : NodeKind) (a : Attrs) (cs rest : List Node)
    (h : k ≠ .classifier) :
    wfDLIcls (.mk k a cs :: rest) = (wfN (.mk k a cs) && wfKids rest) := by
  cases k <;> first | rfl | (exact absurd rfl h)

theorem wfDLI_cons_ne (k : NodeKind) (a : Attrs) (cs rest : List Node)
    (h : k ≠ .term) : wfDLI (.mk k a cs :: rest) = false := by
  cases k <;> first | rfl | (exact absurd rfl h)

theorem walkKids_pctx_of (wide : Char → Bool) (par : Option (NodeKind × Nat)) :
    ∀ (cs : List Node),
      (∀ c ∈ cs, wfN c = true → ∀ par2 (s2 : TState),
        preservesCtx s2 (walkNode wide par2 c s2)) →
      wfKids cs = true → ∀ s, preservesCtx s (walkKids wide par cs s) := by
  intro cs
  induction cs with
  | nil => intro _ _ s; exact pctx_refl s
  | cons c r ihr =>
    intro hsub hwf s
    rw [wfKids, Bool.and_eq_true] at hwf
    rw [walkKids]
    refine pctx_trans ?_ (ihr (fun d hd => hsub d (List.mem_cons_of_mem c hd)) hwf.2 _)
    exact hsub c (List.mem_cons_self c r) hwf.1 par s

theorem item_step (wide : Char → Bool) (par : Option (NodeKind × Nat)) (a : Attrs)
    (ics : List Node)
    (hkids : ∀ par2 (s2 : TState), preservesCtx s2 (walkKids wide par2 ics s2))
    (s : TState) (c : Int) (r : List Int) (hs : s.list_counter = c :: r) :
    itemsCtx s (walkNode wide par (.mk .list_item a ics) s) r := by
  have hred : walkNode wide par (.mk .list_item a ics) s =
      depart_list_item wide
        (walkKids wide (some (.list_item, ics.length)) ics (visit_list_item s)) := rfl
  rw [hred]
  by_cases hc1 : c = -1
  · subst hc1
    have hv : visit_list_item s = newState 2 s := by
      simp [visit_list_item, hs]
    rw [hv]
    obtain ⟨hl, hmin, hcnt, new, hmk, hdeep⟩ :=
      hkids (some (.list_item, ics.length)) (newState 2 s)
    set mid := walkKids wide (some (.list_item, ics.length)) ics (newState 2 s) with hmid
    have hmc : mid.list_counter = (-1 : Int) :: r := by
      rw [hcnt]
      simp [hs]
    have hd : depart_list_item wide mid = depart_li_bullet wide mid := by
      unfold depart_list_item
      rw [hmc]
      simp
    rw [hd]
    have h1 : (newState 2 s).states.length = s.states.length + 1 := by simp
    have h2 : (newState 2 s).minStates = s.minStates := by simp
    have h4 : (newState 2 s).markers = s.markers := by simp
    rw [h1] at hl
    rw [h1, h2] at hmin
    refine ⟨?_, ?_, ⟨-1, ?_⟩, new ++ [(r.length + 1, chars "- ")], ?_, ?_⟩
    · simp only [depart_li_bullet_states_length]
      omega
    · simp only [depart_li_bullet_minStates]
      omega
    · simp only [depart_li_bullet_list_counter, hmc]
    · simp only [depart_li_bullet_markers, hmc, hmk, h4]
      simp
    · intro m hm2
      rcases List.mem_append.mp hm2 with hmm | hmm
      · have hb := hdeep m hmm
        have hlen : (newState 2 s).list_counter.length = r.length + 1 := by simp [hs]
        omega
      · rcases List.mem_singleton.mp hmm with rfl
        simp
  · by_cases hc2 : c = -2
    · subst hc2
      have hv : visit_list_item s = s := by
        simp [visit_list_item, hs]
      rw [hv]
      obtain ⟨hl, hmin, hcnt, new, hmk, hdeep⟩ := hkids (some (.list_item, ics.length)) s
      set mid := walkKids wide (some (.list_item, ics.length)) ics s with hmid
      have hmc : mid.list_counter = (-2 : Int) :: r := by rw [hcnt, hs]
      have hd : depart_list_item wide mid = mid := by
        unfold depart_list_item
        rw [hmc]
        norm_num
      rw [hd]
      refine ⟨hl, hmin, ⟨-2, hmc⟩, new, hmk, ?_⟩
      intro m hm2
      have hb := hdeep m hm2
      have hlen : s.list_counter.length = r.length + 1 := by simp [hs]
      omega
    · have hv : visit_list_item s =
          newState ((intRepr (c + 1)).length + 2) { s with list_counter := (c + 1) :: r } := by
        simp [visit_list_item, hs, hc1, hc2]
      rw [hv]
      set s1 := newState ((intRepr (c + 1)).length + 2)
        { s with list_counter := (c + 1) :: r } with hs1
      obtain ⟨hl, hmin, hcnt, new, hmk, hdeep⟩ := hkids (some (.list_item, ics.length)) s1
      set mid := walkKids wide (some (.list_item, ics.length)) ics s1 with hmid
      have hs1c : s1.list_counter = (c + 1) :: r := by simp [hs1, newState]
      have hs1l : s1.states.length = s.states.length + 1 := by simp [hs1, newState]
      have hs1m : s1.minStates = s.minStates := by simp [hs1, newState]
      have hs1mk : s1.markers = s.markers := by simp [hs1, newState]
      have hmc : mid.list_counter = (c + 1) :: r := by rw [hcnt, hs1c]
      rw [hs1l] at hl
      rw [hs1l, hs1m] at hmin
      rw [hs1mk] at hmk
      have hdeep2 : ∀ m ∈ new, r.length + 1 ≤ m.1 := by
        intro m hm2
        have hb := hdeep m hm2
        have hlen : s1.list_counter.length = r.length + 1 := by simp [hs1c]
        omega
      by_cases hc3 : c = -3
      · have hd : depart_list_item wide mid = mid := by
          unfold depart_list_item
          rw [hmc]
          subst hc3
          norm_num
        rw [hd]
        exact ⟨by omega, by omega, ⟨c + 1, hmc⟩, new, hmk, hdeep2⟩
      · have hd : depart_list_item wide mid = depart_li_enum wide (c + 1) mid := by
          unfold depart_list_item
          rw [hmc]
          have hn1 : ¬(c + 1 = -1) := by omega
          have hn2 : ¬(c + 1 = -2) := by omega
          simp [hn1, hn2]
        rw [hd]
        refine ⟨?_, ?_, ⟨c + 1, by simp [hmc]⟩,
          new ++ [(r.length + 1, intRepr (c + 1) ++ chars ". ")], ?_, ?_⟩
        · simp only [depart_li_enum_states_length]
          omega
        · simp only [depart_li_enum_minStates]
          omega
        · simp only [depart_li_enum_markers, hmc, hmk]
          simp
        · intro m hm2
          rcases List.mem_append.mp hm2 with hmm | hmm
          · exact hdeep2 m hmm
          · rcases List.mem_singleton.mp hmm with rfl
            simp

theorem wfItem_shape (k : NodeKind) (a : Attrs) (cs : List Node)
    (h : wfItem (.mk k a cs) = true) : k = .list_item ∧ wfKids cs = true := by
  cases k <;> first | (exact ⟨rfl, h⟩) | (exact Bool.noConfusion h)

theorem walkItems_pctx_of (wide : Char → Bool) (par : Option (NodeKind × Nat)) :
    ∀ (items : List Node),
      (∀ it ∈ items, ∀ a2 ics2, it = .mk .list_item a2 ics2 → wfKids ics2 = true →
        ∀ par2 (s2 : TState), preservesCtx s2 (walkKids wide par2 ics2 s2)) →
      wfItems items = true → ∀ (s : TState) (c : Int) (r : List Int),
        s.list_counter = c :: r → itemsCtx s (walkKids wide par items s) r := by
  intro items
  induction items with
  | nil =>
    intro _ _ s c r hs
    exact ⟨le_refl _, min_le_left _ _, ⟨c, hs⟩, [], by simp [walkKids], by simp⟩
  | cons it rest ihr =>
    intro hsub hwf s c r hs
    rw [wfItems, Bool.and_eq_true] at hwf
    obtain ⟨hit, hrest⟩ := hwf
    obtain ⟨ka, aa, ica⟩ := it
    obtain ⟨rfl, hkw⟩ := wfItem_shape ka aa ica hit
    rw [walkKids]
    obtain ⟨hl1, hm1, ⟨c2, hc2⟩, new1, hmk1, hdeep1⟩ :=
      item_step wide par aa ica
        (hsub (.mk .list_item aa ica) (List.mem_cons_self _ _) aa ica rfl hkw) s c r hs
    obtain ⟨hl2, hm2, ⟨c3, hc3⟩, new2, hmk2, hdeep2⟩ :=
      ihr (fun d hd => hsub d (List.mem_cons_of_mem _ hd)) hrest
        (walkNode wide par (.mk .list_item aa ica) s) c2 r hc2
    refine ⟨by omega, by omega, ⟨c3, hc3⟩, new1 ++ new2, ?_, ?_⟩
    · rw [hmk2, hmk1, List.append_assoc]
    · intro m hm2'
      rcases List.mem_append.mp hm2' with hmm | hmm
      · exact hdeep1 m hmm
      · have := hdeep2 m hmm
        have hclen : (walkNode wide par (.mk .list_item aa ica) s).list_counter.length
            = r.length + 1 := by rw [hc2]; simp
        omega

theorem wfClsHead_shape (k : NodeKind) (a : Attrs) (cs : List Node)
    (h : wfClsHead (.mk k a cs) = true) :
    k = .classifier ∧ noCntKids cs = true ∧ wfKids cs = true := by
  cases k <;>
    first
      | (exact ⟨rfl, (Bool.and_eq_true _ _).mp h⟩)
      | (exact Bool.noConfusion h)

theorem walkDLIcls_of (wide : Char → Bool) (par : Option (NodeKind × Nat)) :
    ∀ (xs : List Node),
      (∀ x ∈ xs,
        (wfN x = true → ∀ par2 (s2 : TState), preservesCtx s2 (walkNode wide par2 x s2)) ∧
        (∀ a2 ccs, x = .mk .classifier a2 ccs → wfKids ccs = true →
          ∀ par2 (s2 : TState), preservesCtx s2 (walkKids wide par2 ccs s2))) →
      wfDLIcls xs = true → ∀ (base s : TState),
        s.classifier_count = (countClKids xs : Int) →
        clCtx base s (countClKids xs) →
        preservesCtx base (walkKids wide par xs s) := by
  intro xs
  induction xs with
  | nil =>
    intro _ _ base s _ hinv
    have h0 : walkKids wide par [] s = s := rfl
    rw [h0]
    exact pctx_of_clCtx hinv
  | cons x rest ihr =>
    intro hsub hwf base s hcnt hinv
    obtain ⟨kx, ax, csx⟩ := x
    by_cases hcl : kx = .classifier
    · subst hcl
      have hwf2 : (wfClsHead (.mk .classifier ax csx) && wfDLIcls rest) = true := hwf
      rw [Bool.and_eq_true] at hwf2
      obtain ⟨hch, hrest⟩ := hwf2
      obtain ⟨-, hnoc, hkw⟩ := wfClsHead_shape _ ax csx hch
      have hcc : countClKids (.mk .classifier ax csx :: rest) = 1 + countClKids rest := by
        have h1 : countCl (.mk .classifier ax csx) = 1 + countClKids csx := rfl
        rw [countClKids, h1, noCntKids_countClKids csx hnoc]
      rw [hcc] at hcnt hinv
      obtain ⟨hi1, hi2, hi3, new0, hi4, hi5⟩ := hinv
      have hpend : base.states.length + 1 ≤ s.states.length := by
        have hne : ¬(((1 + countClKids rest : Nat) : Int) = 0) := by omega
        rw [if_neg hne] at hi1
        exact hi1
      rw [walkKids]
      have hredc : walkNode wide par (.mk .classifier ax csx) s =
          depart_classifier wide
            (walkKids wide (some (.classifier, csx.length)) csx
              (addText (chars " : ") s)) := rfl
      rw [hredc]
      set mid0 := addText (chars " : ") s with hmid0
      obtain ⟨hl1, hm1, hc1, new1, hmk1, hdeep1⟩ :=
        (hsub _ (List.mem_cons_self _ _)).2 ax csx rfl hkw (some (.classifier, csx.length)) mid0
      set mid1 := walkKids wide (some (.classifier, csx.length)) csx mid0 with hmid1
      have h01 : mid0.states.length = s.states.length := by rw [hmid0]; simp
      have h02 : mid0.minStates = s.minStates := by rw [hmid0]; simp
      have h03 : mid0.list_counter = s.list_counter := by rw [hmid0]; simp
      have h04 : mid0.markers = s.markers := by rw [hmid0]; simp
      have h05 : mid0.classifier_count = s.classifier_count := by rw [hmid0]; simp
      have hcnt1 : mid1.classifier_count = ((1 + countClKids rest : Nat) : Int) := by
        rw [hmid1, walkKids_count wide csx hnoc, h05, hcnt]
      by_cases hr0 : countClKids rest = 0
      · have hdc : depart_classifier wide mid1 =
            endState wide true none none
              { mid1 with classifier_count := mid1.classifier_count - 1 } := by
          simp only [depart_classifier]
          rw [hcnt1, hr0]
          norm_num
        have ht1 : (depart_classifier wide mid1).states.length
            = mid1.states.length - 1 := by rw [hdc]; simp
        have ht2 : (depart_classifier wide mid1).minStates
            = min mid1.minStates (mid1.states.length - 1) := by rw [hdc]; simp
        have ht3 : (depart_classifier wide mid1).list_counter = mid1.list_counter := by
          rw [hdc]; simp
        have ht4 : (depart_classifier wide mid1).markers = mid1.markers := by
          rw [hdc]; simp
        have ht5 : (depart_classifier wide mid1).classifier_count
            = (countClKids rest : Int) := by
          rw [hdc]
          simp only [endState_classifier_count]
          rw [hcnt1]
          omega
        refine ihr (fun d hd => hsub d (List.mem_cons_of_mem _ hd)) hrest base _ ht5
          ⟨?_, ?_, ?_, new0 ++ new1, ?_, ?_⟩
        · rw [ht1]
          split <;> omega
        · rw [ht2]
          omega
        · rw [ht3, hc1, h03, hi3]
        · rw [ht4, hmk1, h04, hi4, List.append_assoc]
        · intro m hm2
          rcases List.mem_append.mp hm2 with hmm | hmm
          · exact hi5 m hmm
          · have hb := hdeep1 m hmm
            rw [h03, hi3] at hb
            exact hb
      · have hdc : depart_classifier wide mid1 =
            { mid1 with classifier_count := mid1.classifier_count - 1 } := by
          simp only [depart_classifier]
          rw [hcnt1]
          have hx : ¬(((1 + countClKids rest : Nat) : Int) - 1 = 0) := by omega
          rw [if_neg hx]
        have ht1 : (depart_classifier wide mid1).states.length
            = mid1.states.length := by rw [hdc]
        have ht2 : (depart_classifier wide mid1).minStates = mid1.minStates := by
          rw [hdc]
        have ht3 : (depart_classifier wide mid1).list_counter = mid1.list_counter := by
          rw [hdc]
        have ht4 : (depart_classifier wide mid1).markers = mid1.markers := by
          rw [hdc]
        have ht5 : (depart_classifier wide mid1).classifier_count
            = (countClKids rest : Int) := by
          rw [hdc]
          show mid1.classifier_count - 1 = (countClKids rest : Int)
          rw [hcnt1]
          omega
        refine ihr (fun d hd => hsub d (List.mem_cons_of_mem _ hd)) hrest base _ ht5
          ⟨?_, ?_, ?_, new0 ++ new1, ?_, ?_⟩
        · rw [ht1]
          split <;> omega
        · rw [ht2]
          omega
        · rw [ht3, hc1, h03, hi3]
        · rw [ht4, hmk1, h04, hi4, List.append_assoc]
        · intro m hm2
          rcases List.mem_append.mp hm2 with hmm | hmm
          · exact hi5 m hmm
          · have hb := hdeep1 m hmm
            rw [h03, hi3] at hb
            exact hb
    · have hwfeq := wfDLIcls_cons_ne kx ax csx rest hcl
      rw [hwfeq, Bool.and_eq_true] at hwf
      obtain ⟨hwn, hwk⟩ := hwf
      have hkall : wfKids (.mk kx ax csx :: rest) = true := by
        rw [wfKids, Bool.and_eq_true]
        exact ⟨hwn, hwk⟩
      have hpc : preservesCtx s (walkKids wide par (.mk kx ax csx :: rest) s) :=
        walkKids_pctx_of wide par _ (fun c hc => (hsub c hc).1) hkall s
      exact pctx_trans (pctx_of_clCtx hinv) hpc

theorem wfTerm_shape (k : NodeKind) (a : Attrs) (cs : List Node)
    (h : wfTerm (.mk k a cs) = true) :
    k = .term ∧ noCntKids cs = true ∧ wfKids cs = true := by
  cases k <;>
    first
      | (exact ⟨rfl, (Bool.and_eq_true _ _).mp h⟩)
      | (exact Bool.noConfusion h)

theorem wfDLItem_shape (k : NodeKind) (a : Attrs) (cs : List Node)
    (h : wfDLItem (.mk k a cs) = true) :
    k = .definition_list_item ∧ wfDLI cs = true := by
  cases k <;>
    first
      | (exact ⟨rfl, h⟩)
      | (exact Bool.noConfusion h)

theorem walkDLI_of (wide : Char → Bool) (par : Option (NodeKind × Nat)) (a : Attrs)
    (ics : List Node)
    (hsub : ∀ x ∈ ics,
      (wfN x = true → ∀ par2 (s2 : TState), preservesCtx s2 (walkNode wide par2 x s2)) ∧
      (∀ a2 ccs, x = .mk .classifier a2 ccs → wfKids ccs = true →
        ∀ par2 (s2 : TState), preservesCtx s2 (walkKids wide par2 ccs s2)) ∧
      (∀ a2 tcs, x = .mk .term a2 tcs → wfKids tcs = true →
        ∀ par2 (s2 : TState), preservesCtx s2 (walkKids wide par2 tcs s2)))
    (hwf : wfDLI ics = true) (s : TState) :
    preservesCtx s (walkNode wide par (.mk .definition_list_item a ics) s) := by
  cases ics with
  | nil => exact absurd hwf (by decide)
  | cons t0 rest2 =>
    obtain ⟨kt, ta, tcs⟩ := t0
    rw [wfDLI, Bool.and_eq_true] at hwf
    obtain ⟨hterm1, hcls⟩ := hwf
    obtain ⟨rfl, hnoc, hkw⟩ := wfTerm_shape kt ta tcs hterm1
    have hred : walkNode wide par (.mk .definition_list_item a (.mk .term ta tcs :: rest2)) s
        = walkKids wide (some (.definition_list_item, (Node.mk .term ta tcs :: rest2).length))
            (.mk .term ta tcs :: rest2)
            { s with classifier_count :=
                (countCl (.mk .definition_list_item a (.mk .term ta tcs :: rest2)) : Int) }
        := rfl
    rw [hred]
    set s2 : TState := { s with classifier_count :=
        (countCl (.mk .definition_list_item a (.mk .term ta tcs :: rest2)) : Int) } with hs2
    have hc1 : countCl (.mk .definition_list_item a (.mk .term ta tcs :: rest2))
        = 0 + ((0 + countClKids tcs) + countClKids rest2) := rfl
    have hco : countCl (.mk .definition_list_item a (.mk .term ta tcs :: rest2))
        = countClKids rest2 := by
      rw [hc1, noCntKids_countClKids tcs hnoc]
      omega
    have hs2cnt : s2.classifier_count = (countClKids rest2 : Int) := by
      rw [hs2]
      show (countCl (.mk .definition_list_item a (.mk .term ta tcs :: rest2)) : Int)
        = (countClKids rest2 : Int)
      rw [hco]
    have hs2l : s2.states.length = s.states.length := rfl
    have hs2m : s2.minStates = s.minStates := rfl
    have hs2c : s2.list_counter = s.list_counter := rfl
    have hs2mk : s2.markers = s.markers := rfl
    rw [walkKids]
    have hredt : walkNode wide (some (.definition_list_item,
          (Node.mk .term ta tcs :: rest2).length)) (.mk .term ta tcs) s2
        = depart_term wide (walkKids wide (some (.term, tcs.length)) tcs (newState 0 s2))
        := rfl
    rw [hredt]
    set s3 := newState 0 s2 with hs3
    obtain ⟨hl1, hm1, hc2, new1, hmk1, hdeep1⟩ :=
      (hsub _ (List.mem_cons_self _ _)).2.2 ta tcs rfl hkw (some (.term, tcs.length)) s3
    set mid := walkKids wide (some (.term, tcs.length)) tcs s3 with hmid
    have hs3l : s3.states.length = s.states.length + 1 := by rw [hs3]; simp [hs2l]
    have hs3m : s3.minStates = s.minStates := by rw [hs3]; simp [hs2m]
    have hs3c : s3.list_counter = s.list_counter := by rw [hs3]; simp [hs2c]
    have hs3mk : s3.markers = s.markers := by rw [hs3]; simp [hs2mk]
    have hcntm : mid.classifier_count = (countClKids rest2 : Int) := by
      rw [hmid, walkKids_count wide tcs hnoc]
      rw [show s3.classifier_count = s2.classifier_count from by rw [hs3]; simp]
      exact hs2cnt
    have hsubtl : ∀ x ∈ rest2,
        (wfN x = true → ∀ par2 (s2' : TState), preservesCtx s2' (walkNode wide par2 x s2')) ∧
        (∀ a2 ccs, x = .mk .classifier a2 ccs → wfKids ccs = true →
          ∀ par2 (s2' : TState), preservesCtx s2' (walkKids wide par2 ccs s2')) := by
      intro x hx
      exact ⟨(hsub x (List.mem_cons_of_mem _ hx)).1,
        (hsub x (List.mem_cons_of_mem _ hx)).2.1⟩
    have hgoal : ∀ (t : TState), t.classifier_count = (countClKids rest2 : Int) →
        clCtx s2 t (countClKids rest2) →
        preservesCtx s (walkKids wide (some (.definition_list_item,
          (Node.mk .term ta tcs :: rest2).length)) rest2 t) := by
      intro t hct hcl
      refine pctx_congr_left ⟨?_, ?_, ?_, ?_⟩
        (walkDLIcls_of wide _ rest2 hsubtl hcls s2 t hct hcl)
      · rw [hs2l]
      · rw [hs2m]
      · rw [hs2c]
      · rw [hs2mk]
    by_cases hr0 : countClKids rest2 = 0
    · have hdt : depart_term wide mid = endState wide true none none mid := by
        unfold depart_term
        rw [hcntm, hr0]
        norm_num
      rw [hdt]
      refine hgoal _ (by simp [hcntm]) ⟨?_, ?_, ?_, new1, ?_, ?_⟩
      · rw [if_pos (by rw [hr0]; norm_num)]
        simp only [endState_states_length]
        omega
      · simp only [endState_minStates]
        rw [hs2m, hs2l]
        omega
      · simp only [endState_list_counter]
        rw [hc2, hs3c, hs2c]
      · simp only [endState_markers]
        rw [hmk1, hs3mk, hs2mk]
      · intro m hm2
        have hb := hdeep1 m hm2
        rw [hs3c, ← hs2c] at hb
        exact hb
    · have hdt : depart_term wide mid = mid := by
        unfold depart_term
        rw [hcntm]
        have hx : ¬((countClKids rest2 : Int) = 0) := by omega
        rw [if_neg hx]
      rw [hdt]
      refine hgoal _ hcntm ⟨?_, ?_, ?_, new1, ?_, ?_⟩
      · rw [if_neg (by omega : ¬((countClKids rest2 : Nat) : Int) = 0)]
        omega
      · rw [hs2m, hs2l]
        omega
      · rw [hc2, hs3c, hs2c]
      · rw [hmk1, hs3mk, hs2mk]
      · intro m hm2
        have hb := hdeep1 m hm2
        rw [hs3c, ← hs2c] at hb
        exact hb

theorem walkDLItems_of (wide : Char → Bool) (par : Option (NodeKind × Nat)) :
    ∀ (dlis : List Node),
      (∀ d ∈ dlis, ∀ a2 ics, d = .mk .definition_list_item a2 ics → wfDLI ics = true →
        ∀ par2 (s2 : TState), preservesCtx s2 (walkNode wide par2 d s2)) →
      wfDLItems dlis = true → ∀ (s : TState),
        preservesCtx s (walkKids wide par dlis s) := by
  intro dlis
  induction dlis with
  | nil => intro _ _ s; exact pctx_refl s
  | cons d r ihr =>
    intro hsub hwf s
    rw [wfDLItems, Bool.and_eq_true] at hwf
    obtain ⟨hd, hr⟩ := hwf
    obtain ⟨kd, ad, icsd⟩ := d
    obtain ⟨rfl, hdli⟩ := wfDLItem_shape kd ad icsd hd
    rw [walkKids]
    exact pctx_trans
      (hsub _ (List.mem_cons_self _ _) ad icsd rfl hdli par s)
      (ihr (fun d2 hd2 => hsub d2 (List.mem_cons_of_mem _ hd2)) hr _)

theorem walk_pctx (wide : Char → Bool) :
    ∀ (N : Nat) (n : Node), nsize n ≤ N → wfN n = true → ∀ par (s : TState),
      preservesCtx s (walkNode wide par n s) := by
  intro N
  induction N with
  | zero =>
    intro n hn
    obtain ⟨k, a, cs⟩ := n
    rw [nsize] at hn
    omega
  | succ N ih =>
    intro n hn hwf par s
    obtain ⟨k, a, cs⟩ := n
    rw [nsize] at hn
    have hB : ∀ (cs2 : List Node), nsizeKids cs2 ≤ N → wfKids cs2 = true →
        ∀ par2 (s2 : TState), preservesCtx s2 (walkKids wide par2 cs2 s2) := by
      intro cs2 hsz hwk par2 s2
      refine walkKids_pctx_of wide par2 cs2 ?_ hwk s2
      intro c hc hwc par3 s3
      exact ih c (le_trans (nsize_le_of_mem cs2 c hc) hsz) hwc par3 s3
    have hsubAll : ∀ (cs2 : List Node), nsizeKids cs2 ≤ N → ∀ x ∈ cs2,
        (wfN x = true → ∀ par2 (s2 : TState), preservesCtx s2 (walkNode wide par2 x s2)) ∧
        (∀ a2 ccs, x = .mk .classifier a2 ccs → wfKids ccs = true →
          ∀ par2 (s2 : TState), preservesCtx s2 (walkKids wide par2 ccs s2)) ∧
        (∀ a2 tcs, x = .mk .term a2 tcs → wfKids tcs = true →
          ∀ par2 (s2 : TState), preservesCtx s2 (walkKids wide par2 tcs s2)) := by
      intro cs2 hsz x hx
      have hxsz := le_trans (nsize_le_of_mem cs2 x hx) hsz
      refine ⟨fun hwx par2 s2 => ih x hxsz hwx par2 s2, ?_, ?_⟩
      · intro a2 ccs he hwk par2 s2
        subst he
        rw [nsize] at hxsz
        exact hB ccs (by omega) hwk par2 s2
      · intro a2 tcs he hwk par2 s2
        subst he
        rw [nsize] at hxsz
        exact hB tcs (by omega) hwk par2 s2
    have hitemsub : ∀ it ∈ cs, ∀ a2 ics2, it = .mk .list_item a2 ics2 →
        wfKids ics2 = true → ∀ par2 (s2 : TState),
          preservesCtx s2 (walkKids wide par2 ics2 s2) := by
      intro it hit a2 ics2 he hwk par2 s2
      have h1 := nsize_le_of_mem cs it hit
      subst he
      rw [nsize] at h1
      exact hB ics2 (by omega) hwk par2 s2
    by_cases hk1 : k = .bullet_list
    · subst hk1
      have hitems : wfItems cs = true := hwf
      have hred : walkNode wide par (.mk .bullet_list a cs) s =
          endState wide false (some [[]]) none
            (addText ['\n'] (listPop (walkKids wide (some (.bullet_list, cs.length)) cs
              (newState 2 (listPush (-1) s))))) := rfl
      rw [hred]
      set s1 := newState 2 (listPush (-1) s) with hs1
      have hs1c : s1.list_counter = -1 :: s.list_counter := by
        rw [hs1]
        simp [listPush]
      obtain ⟨hl, hm, ⟨c2, hc2⟩, new, hmk, hdeep⟩ :=
        walkItems_pctx_of wide (some (.bullet_list, cs.length)) cs hitemsub hitems
          s1 (-1) s.list_counter hs1c
      set mid := walkKids wide (some (.bullet_list, cs.length)) cs s1 with hmid
      have hs1l : s1.states.length = s.states.length + 1 := by rw [hs1]; simp [listPush]
      have hs1m : s1.minStates = s.minStates := by rw [hs1]; simp [listPush]
      have hs1mk : s1.markers = s.markers := by rw [hs1]; simp [listPush]
      refine ⟨?_, ?_, ?_, new, ?_, ?_⟩
      · simp only [endState_states_length, addText_states_length]
        simp only [listPop]
        omega
      · simp only [endState_minStates, addText_minStates, addText_states_length]
        simp only [listPop]
        omega
      · simp only [endState_list_counter, addText_list_counter]
        simp only [listPop]
        rw [hc2]
        rfl
      · simp only [endState_markers, addText_markers]
        simp only [listPop]
        rw [hmk, hs1mk]
      · intro m hm2
        have hb := hdeep m hm2
        omega
    · by_cases hk2 : k = .enumerated_list
      · subst hk2
        have hitems : wfItems cs = true := hwf
        have hred : walkNode wide par (.mk .enumerated_list a cs) s =
            listPop (walkKids wide (some (.enumerated_list, cs.length)) cs
              (listPush ((a.start.getD 1) - 1) s)) := rfl
        rw [hred]
        set s1 := listPush ((a.start.getD 1) - 1) s with hs1
        have hs1c : s1.list_counter = ((a.start.getD 1) - 1) :: s.list_counter := by
          rw [hs1]
          simp [listPush]
        obtain ⟨hl, hm, ⟨c2, hc2⟩, new, hmk, hdeep⟩ :=
          walkItems_pctx_of wide (some (.enumerated_list, cs.length)) cs hitemsub hitems
            s1 ((a.start.getD 1) - 1) s.list_counter hs1c
        set mid := walkKids wide (some (.enumerated_list, cs.length)) cs s1 with hmid
        have hs1l : s1.states.length = s.states.length := by rw [hs1]; simp [listPush]
        have hs1m : s1.minStates = s.minStates := by rw [hs1]; simp [listPush]
        have hs1mk : s1.markers = s.markers := by rw [hs1]; simp [listPush]
        refine ⟨?_, ?_, ?_, new, ?_, ?_⟩
        · simp only [listPop]
          omega
        · simp only [listPop]
          omega
        · simp only [listPop]
          rw [hc2]
          rfl
        · simp only [listPop]
          rw [hmk, hs1mk]
        · intro m hm2
          have hb := hdeep m hm2
          omega
      · by_cases hk3 : k = .definition_list
        · subst hk3
          have hdls : wfDLItems cs = true := hwf
          have hred : walkNode wide par (.mk .definition_list a cs) s =
              listPop (walkKids wide (some (.definition_list, cs.length)) cs
                (listPush (-2) s)) := rfl
          rw [hred]
          set s1 := listPush (-2) s with hs1
          have hdsub : ∀ d ∈ cs, ∀ a2 ics, d = .mk .definition_list_item a2 ics →
              wfDLI ics = true → ∀ par2 (s2 : TState),
                preservesCtx s2 (walkNode wide par2 d s2) := by
            intro d hd a2 ics he hdli par2 s2
            have h1 := nsize_le_of_mem cs d hd
            subst he
            rw [nsize] at h1
            exact walkDLI_of wide par2 a2 ics (hsubAll ics (by omega) ) hdli s2
          obtain ⟨hl, hm, hc2, new, hmk, hdeep⟩ :=
            walkDLItems_of wide (some (.definition_list, cs.length)) cs hdsub hdls s1
          set mid := walkKids wide (some (.definition_list, cs.length)) cs s1 with hmid
          have hs1l : s1.states.length = s.states.length := by rw [hs1]; simp [listPush]
          have hs1m : s1.minStates = s.minStates := by rw [hs1]; simp [listPush]
          have hs1mk : s1.markers = s.markers := by rw [hs1]; simp [listPush]
          have hs1c : s1.list_counter = -2 :: s.list_counter := by
            rw [hs1]
            simp [listPush]
          refine ⟨?_, ?_, ?_, new, ?_, ?_⟩
          · simp only [listPop]
            omega
          · simp only [listPop]
            omega
          · simp only [listPop]
            rw [hc2, hs1c]
            rfl
          · simp only [listPop]
            rw [hmk, hs1mk]
          · intro m hm2
            have hb := hdeep m hm2
            rw [hs1c] at hb
            simp only [List.length_cons] at hb
            omega
        · by_cases hk4 : k = .definition_list_item
          · subst hk4
            exact Bool.noConfusion hwf
          · by_cases hk5 : k = .list_item
            · subst hk5
              exact Bool.noConfusion hwf
            · by_cases hk6 : k = .term
              · subst hk6
                exact Bool.noConfusion hwf
              · by_cases hk7 : k = .classifier
                · subst hk7
                  exact Bool.noConfusion hwf
                · have hsp : specialK k = false := by
                    cases k <;>
                      first
                        | rfl
                        | (exact absurd rfl hk1)
                        | (exact absurd rfl hk2)
                        | (exact absurd rfl hk3)
                        | (exact absurd rfl hk4)
                        | (exact absurd rfl hk5)
                        | (exact absurd rfl hk6)
                        | (exact absurd rfl hk7)
                  have hkw : wfKids cs = true := by
                    rw [← wfN_eq_wfKids k a cs hsp]
                    exact hwf
                  rcases hook_shape wide par (.mk k a cs) s hsp with
                    ⟨hskip, hceq⟩ | ⟨hns', hceq, hdep⟩ | ⟨hns', hpush, hpop⟩
                  · rw [walkNode]
                    split
                    · exact pctx_of_ctxEq hceq
                    · rename_i hv
                      exact absurd hskip hv
                  · rw [walkNode]
                    split
                    · rename_i hv
                      rw [hns'] at hv
                      exact Bool.noConfusion hv
                    · exact pctx_congr_right (hdep _)
                        (pctx_congr_left hceq (hB cs (by omega) hkw _ _))
                  · rw [walkNode]
                    split
                    · rename_i hv
                      rw [hns'] at hv
                      exact Bool.noConfusion hv
                    · exact pctx_push_pop hpush (hB cs (by omega) hkw _ _) (hpop _)

/-- Claim C9: over the depth-first pre/post traversal of any well-formed
document tree from the fresh translator state, the buffer stack
`self.states` holds at least one buffer at every instant after
`visit_document` pushes the root buffer and until the final
`depart_document` pop completes: the ghost `minStates` tracker, which
records the stack height left behind by every pop (and records `0` on a
pop of an empty stack), never drops below `1`. -/
theorem c9_stack_invariant (wide : Char → Bool) (t : Node) (h : wfDoc t = true) :
    1 ≤ (walkNode wide none t initState).minStates := by
  obtain ⟨k, a, cs⟩ := t
  have hk : k = .document := by
    cases k <;> first | rfl | (exact Bool.noConfusion h)
  subst hk
  have hkids : wfKids cs = true := h
  have hred : walkNode wide none (.mk .document a cs) initState =
      depart_document wide (walkKids wide (some (.document, cs.length)) cs
        (newState 0 initState)) := rfl
  rw [hred]
  have hp : preservesCtx (newState 0 initState)
      (walkKids wide (some (.document, cs.length)) cs (newState 0 initState)) := by
    refine walkKids_pctx_of wide _ cs ?_ hkids _
    intro c hc hwc par2 s2
    exact walk_pctx wide (nsize c) c (le_refl _) hwc par2 s2
  obtain ⟨hl, hm, -, new, -, -⟩ := hp
  set mid := walkKids wide (some (.document, cs.length)) cs (newState 0 initState)
    with hmid
  have h1 : (newState 0 initState).states.length = 2 := rfl
  have h2 : (newState 0 initState).minStates = 1 := rfl
  rw [h1] at hl
  rw [h1, h2] at hm
  simp only [depart_document]
  split
  · show 1 ≤ (endState wide true (some [[]]) none mid).minStates
    simp only [endState_minStates]
    omega
  · simp only [endState_minStates]
    omega

theorem c9_stack_invariant_witness :
    wfDoc c9Tree = true ∧ 1 ≤ (walkNode noWide none c9Tree initState).minStates :=
  ⟨by decide, c9_stack_invariant noWide c9Tree (by decide)⟩

theorem enumItems (wide : Char → Bool) (par : Option (NodeKind × Nat)) :
    ∀ (items : List Node), wfItems items = true →
      ∀ (s : TState) (c : Int) (r : List Int),
        s.list_counter = c :: r → 0 ≤ c →
        (walkKids wide par items s).list_counter = (c + items.length) :: r ∧
        (walkKids wide par items s).markers.filter (fun m => m.1 == r.length + 1)
          = s.markers.filter (fun m => m.1 == r.length + 1)
            ++ (List.range items.length).map
                (fun (j : Nat) => (r.length + 1, intRepr (c + 1 + (j : Int)) ++ chars ". ")) := by
  intro items
  induction items with
  | nil =>
    intro _ s c r hs hc
    have h0 : walkKids wide par [] s = s := rfl
    rw [h0]
    constructor
    · rw [hs]
      simp
    · simp
  | cons it rest ihr =>
    intro hwf s c r hs hc
    rw [wfItems, Bool.and_eq_true] at hwf
    obtain ⟨hit, hrest⟩ := hwf
    obtain ⟨ka, aa, ica⟩ := it
    obtain ⟨rfl, hkw⟩ := wfItem_shape ka aa ica hit
    rw [walkKids]
    have hcn1 : ¬(c = -1) := by omega
    have hcn2 : ¬(c = -2) := by omega
    have hv : visit_list_item s =
        newState ((intRepr (c + 1)).length + 2)
          { s with list_counter := (c + 1) :: r } := by
      simp [visit_list_item, hs, hcn1, hcn2]
    have hred : walkNode wide par (.mk .list_item aa ica) s =
        depart_list_item wide
          (walkKids wide (some (.list_item, ica.length)) ica (visit_list_item s)) := rfl
    set s1 := newState ((intRepr (c + 1)).length + 2)
      { s with list_counter := (c + 1) :: r } with hs1
    have hKB : ∀ par2 (s2 : TState), preservesCtx s2 (walkKids wide par2 ica s2) := by
      intro par2 s2
      refine walkKids_pctx_of wide par2 ica ?_ hkw s2
      intro c2 hc2' hwc par3 s3
      exact walk_pctx wide (nsize c2) c2 (le_refl _) hwc par3 s3
    obtain ⟨hl1, hm1, hcc1, new1, hmk1, hdeep1⟩ := hKB (some (.list_item, ica.length)) s1
    set mid := walkKids wide (some (.list_item, ica.length)) ica s1 with hmid
    have hs1c : s1.list_counter = (c + 1) :: r := by rw [hs1]; simp [newState]
    have hs1mk : s1.markers = s.markers := by rw [hs1]; simp [newState]
    have hmc : mid.list_counter = (c + 1) :: r := by rw [hcc1, hs1c]
    have hd : depart_list_item wide mid = depart_li_enum wide (c + 1) mid := by
      unfold depart_list_item
      rw [hmc]
      have hn1 : ¬(c + 1 = -1) := by omega
      have hn2 : ¬(c + 1 = -2) := by omega
      simp [hn1, hn2]
    set t1 := walkNode wide par (.mk .list_item aa ica) s with ht1
    have ht1eq : t1 = depart_li_enum wide (c + 1) mid := by
      rw [hred, hv, ← hmid, hd]
    have ht1c : t1.list_counter = (c + 1) :: r := by
      rw [ht1eq]
      simp [hmc]
    have ht1mk : t1.markers
        = mid.markers ++ [(r.length + 1, intRepr (c + 1) ++ chars ". ")] := by
      rw [ht1eq]
      simp [hmc]
    obtain ⟨ih1, ih2⟩ := ihr hrest t1 (c + 1) r ht1c (by omega)
    constructor
    · rw [ih1]
      simp only [List.length_cons]
      congr 1
      push_cast
      ring
    · rw [ih2, ht1mk, List.filter_append, hmk1, List.filter_append, hs1mk]
      have hnew1 : new1.filter (fun m => m.1 == r.length + 1) = [] := by
        rw [List.filter_eq_nil]
        intro m hm
        have hb := hdeep1 m hm
        rw [hs1c] at hb
        simp only [List.length_cons] at hb
        simp only [beq_iff_eq]
        omega
      rw [hnew1]
      have hown : List.filter (fun m => m.1 == r.length + 1)
          [(r.length + 1, intRepr (c + 1) ++ chars ". ")]
          = [(r.length + 1, intRepr (c + 1) ++ chars ". ")] := by simp
      rw [hown]
      have hrange : (List.range (rest.length + 1)).map
          (fun (j : Nat) => (r.length + 1, intRepr (c + 1 + (j : Int)) ++ chars ". "))
          = (r.length + 1, intRepr (c + 1) ++ chars ". ")
            :: (List.range rest.length).map
                (fun (j : Nat) => (r.length + 1, intRepr (c + 1 + 1 + (j : Int)) ++ chars ". ")) := by
        rw [List.range_succ_eq_map, List.map_cons, List.map_map]
        congr 1
        · norm_num
        · refine List.map_congr_left ?_
          intro j hj
          simp only [Function.comp_apply]
          congr 3
          push_cast
          ring
      simp only [List.length_cons]
      rw [hrange]
      simp [List.append_assoc]

/-- Claim C8, refuted at `start = 0`: for the two-item enumerated list
with `start` attribute `0` the counter is pushed at `0 - 1 = -1`, the
bullet-list sentinel, so both items are emitted with the bullet marker
`"- "` — not the claimed `"0. "`, `"1. "`. -/
theorem c8_counterexample :
    (walkNode noWide none (c8List 0) initState).markers
        = [(1, chars "- "), (1, chars "- ")] ∧
    ¬((walkNode noWide none (c8List 0) initState).markers
        = [(1, chars "0. "), (1, chars "1. ")]) := by
  decide

/-- Claim C8 (amended): for an enumerated list whose `start` attribute
is `v ≥ 1` (the docutils default is `1`), walked from any translator
state, the item markers recorded at the list's own nesting depth are
exactly `v. `, `v+1. `, `v+2. `, … in document order, one per direct
list item; markers from lists nested inside the items are recorded at
strictly greater depth (so the filter excludes them), and the outer
`list_counter` stack is restored when the list departs. -/
theorem c8_enumerated_markers (wide : Char → Bool) (par : Option (NodeKind × Nat))
    (a : Attrs) (items : List Node) (v : Int) (s : TState)
    (hv : 1 ≤ v) (ha : a.start = some v) (hwf : wfItems items = true) :
    ((walkNode wide par (.mk .enumerated_list a items) s).markers.filter
        (fun m => m.1 == s.list_counter.length + 1))
      = (s.markers.filter (fun m => m.1 == s.list_counter.length + 1))
        ++ (List.range items.length).map
            (fun (j : Nat) => (s.list_counter.length + 1,
              intRepr (v + (j : Int)) ++ chars ". "))
      ∧ (walkNode wide par (.mk .enumerated_list a items) s).list_counter
          = s.list_counter := by
  have hred : walkNode wide par (.mk .enumerated_list a items) s =
      listPop (walkKids wide (some (.enumerated_list, items.length)) items
        (listPush ((a.start.getD 1) - 1) s)) := rfl
  rw [hred, ha]
  simp only [Option.getD_some]
  set s1 := listPush (v - 1) s with hs1
  have hs1c : s1.list_counter = (v - 1) :: s.list_counter := by
    rw [hs1]
    simp [listPush]
  have hs1mk : s1.markers = s.markers := by
    rw [hs1]
    simp [listPush]
  obtain ⟨he1, he2⟩ := enumItems wide (some (.enumerated_list, items.length)) items hwf
    s1 (v - 1) s.list_counter hs1c (by omega)
  set mid := walkKids wide (some (.enumerated_list, items.length)) items s1 with hmid
  constructor
  · show mid.markers.filter (fun m => m.1 == s.list_counter.length + 1) = _
    rw [he2, hs1mk]
    congr 1
    refine List.map_congr_left ?_
    intro j hj
    congr 3
    ring
  · show mid.list_counter.tail = s.list_counter
    rw [he1]
    rfl

theorem c8_enumerated_markers_witness :
    (1 : Int) ≤ 2 ∧
    ({ noAttrs with start := some 2 } : Attrs).start = some 2 ∧
    wfItems [ent .list_item [ent .paragraph [textNode "a"]],
      ent .list_item [ent .paragraph [textNode "b"]]] = true ∧
    (((walkNode noWide none (c8List 2) initState).markers.filter
        (fun m => m.1 == initState.list_counter.length + 1))
      = (initState.markers.filter (fun m => m.1 == initState.list_counter.length + 1))
        ++ (List.range ([ent .list_item [ent .paragraph [textNode "a"]],
              ent .list_item [ent .paragraph [textNode "b"]]] : List Node).length).map
            (fun (j : Nat) => (initState.list_counter.length + 1,
              intRepr (2 + (j : Int)) ++ chars ". "))
      ∧ (walkNode noWide none (c8List 2) initState).list_counter
          = initState.list_counter) :=
  ⟨by decide, rfl, by decide,
    c8_enumerated_markers noWide none { noAttrs with start := some 2 }
      [ent .list_item [ent .paragraph [textNode "a"]],
        ent .list_item [ent .paragraph [textNode "b"]]] 2 initState
      (by decide) rfl (by decide)⟩

end TranslatorProofs

end Mdx
